import Mathlib

/-!
Verification of the compgraph library (graph construction/execution engine,
streaming Map/Reduce/Join operators and the built-in mapper/reducer/joiner
library) against its natural-language specification.

Shallow embedding conventions:
* A Python `dict` row is an association list with unique keys; `d[k] = v`
  replaces in place or appends (`dictSet`), `d.update(e)` folds `dictSet`
  (`dictUpdate`), iteration order is list order.
* Python floats are modelled as exact rationals.  `np.log` of a positive
  rational is kept symbolic (`Value.logPos`), `np.log 0 = -inf`,
  `np.log` of a negative number is `nan` (numpy emits a warning, not an
  exception).  A product `c * ln q` is the symbolic `Value.scaledLog c q`.
* Fallible Python code returns `Except PyErr`; generators are modelled as
  eagerly produced lists (a raised exception anywhere makes the whole
  `run` fail, which is the observable behaviour of `Graph.run`).
* Mappers additionally return the post-call state of the row object they
  received, so that in-place mutation of the input row is observable.
-/

namespace CompGraph

/-- Dynamically-typed row values.  `int`/`rat`/`str` are the Python values the
claims exercise; `logPos q` is the symbolic exact value `ln q` (for `q > 0`)
returned by `np.log`, `scaledLog c q` is the symbolic `c * ln q`, and
`posInf`/`negInf`/`nan` are the IEEE specials that `np.log` and `*` can
produce. -/
inductive Value where
  | int : Int → Value
  | rat : ℚ → Value
  | str : String → Value
  | logPos : ℚ → Value
  | scaledLog : ℚ → ℚ → Value
  | posInf : Value
  | negInf : Value
  | nan : Value
deriving DecidableEq, Repr

/-- The Python exception kinds raised by the embedded code. -/
inductive PyErr where
  | keyError : PyErr
  | indexError : PyErr
  | typeError : PyErr
  | zeroDivisionError : PyErr
deriving DecidableEq, Repr

instance exceptDecEq {ε α : Type} [DecidableEq ε] [DecidableEq α] :
    DecidableEq (Except ε α) := fun x y =>
  match x, y with
  | .error a, .error b =>
    if h : a = b then .isTrue (by rw [h])
    else .isFalse (fun he => h (Except.error.inj he))
  | .ok a, .ok b =>
    if h : a = b then .isTrue (by rw [h])
    else .isFalse (fun he => h (Except.ok.inj he))
  | .error _, .ok _ => .isFalse (fun he => Except.noConfusion he)
  | .ok _, .error _ => .isFalse (fun he => Except.noConfusion he)

/-- A row: a Python dict from column names to values, as an association list
in insertion order with unique keys. -/
abbrev Row := List (String × Value)

/-- The column names of a row (`row.keys()`). -/
def rowNames (r : Row) : List String := r.map Prod.fst

/-- Dictionary lookup (`row.get(k)` flavour): first binding wins. -/
def getVal : Row → String → Option Value
  | [], _ => none
  | (k, v) :: rest, c => if k = c then some v else getVal rest c

/-- Subscript lookup `row[k]`: raises `KeyError` when the column is absent. -/
def getK (r : Row) (k : String) : Except PyErr Value :=
  match getVal r k with
  | some v => .ok v
  | none => .error .keyError

/-- Python `d[k] = v`: replace in place if the key exists, else append. -/
def dictSet : Row → String → Value → Row
  | [], k, v => [(k, v)]
  | (k', v') :: rest, k, v =>
    if k' = k then (k, v) :: rest else (k', v') :: dictSet rest k v

/-- Apply a sequence of `d[k] = v` writes from left to right. -/
def applyWrites (d : Row) (ws : List (String × Value)) : Row :=
  ws.foldl (fun d kv => dictSet d kv.1 kv.2) d

/-- Python `a.copy()` followed by `a.update(b)`. -/
def dictUpdate (a b : Row) : Row := applyWrites a b

/-- `mapM` specialised to `Except PyErr`, defined by recursion so that proofs
can proceed by straightforward induction. -/
def emapM (f : α → Except PyErr β) : List α → Except PyErr (List β)
  | [] => .ok []
  | a :: as => do
    let b ← f a
    let bs ← emapM f as
    .ok (b :: bs)

/-- `flatMapM` specialised to `Except PyErr` (a generator's
`for x in xs: yield from f(x)`). -/
def eflatMapM (f : α → Except PyErr (List β)) : List α → Except PyErr (List β)
  | [] => .ok []
  | a :: as => do
    let bs ← f a
    let rest ← eflatMapM f as
    .ok (bs ++ rest)

/-- Numeric view of a value (Python ints and floats). -/
def valNum : Value → Option ℚ
  | .int a => some (a : ℚ)
  | .rat a => some a
  | _ => none

/-- The comparison class of a value: numbers compare through `ℚ`, strings
through `String`.  Comparisons of the exotic values (`logPos`, infinities,
`nan`) are outside the fragment the claims exercise and are modelled as
incomparable. -/
def cmpKey : Value → Option (ℚ ⊕ String)
  | .int a => some (.inl (a : ℚ))
  | .rat a => some (.inl a)
  | .str s => some (.inr s)
  | _ => none

/-- Python `==` on values: ints and floats compare numerically, strings
structurally; `nan` is not equal to anything (including itself); the
symbolic log values compare by their exact-real meaning. -/
def pyEqV (a b : Value) : Bool :=
  match cmpKey a, cmpKey b with
  | some x, some y => decide (x = y)
  | _, _ =>
    match a, b with
    | .negInf, .negInf => true
    | .posInf, .posInf => true
    | .logPos p, .logPos q => decide (p = q)
    | .scaledLog c p, .scaledLog d q => decide (c = d) && decide (p = q)
    | _, _ => false

/-- Python `<` on values: numbers and strings are ordered, any other
combination raises `TypeError`. -/
def pyLtV (a b : Value) : Except PyErr Bool :=
  match cmpKey a, cmpKey b with
  | some (.inl x), some (.inl y) => .ok (decide (x < y))
  | some (.inr x), some (.inr y) => .ok (decide (x < y))
  | _, _ => .error .typeError

/-- Python `==` on lists of values (pairwise `==`, equal lengths). -/
def pyEqK : List Value → List Value → Bool
  | [], [] => true
  | a :: as, b :: bs => pyEqV a b && pyEqK as bs
  | _, _ => false

/-- Python `<` on lists of values: lexicographic, skipping `==` prefixes;
a raised `TypeError` propagates. -/
def pyLtK : List Value → List Value → Except PyErr Bool
  | [], [] => .ok false
  | [], _ :: _ => .ok true
  | _ :: _, [] => .ok false
  | a :: as, b :: bs => if pyEqV a b then pyLtK as bs else pyLtV a b

/-- Boolean reading of `pyLtK` (false on a `TypeError`); the join-driver
theorems only use it on keys hypothesised to be comparable. -/
def kLtB (ka kb : List Value) : Bool :=
  match pyLtK ka kb with
  | .ok b => b
  | .error _ => false

/-- Python `/`: true division, always producing a float (an exact rational
here); division by zero raises `ZeroDivisionError`, non-numeric operands
raise `TypeError`. -/
def pyDiv (x y : Value) : Except PyErr Value :=
  match valNum x, valNum y with
  | some a, some b =>
    if b = 0 then .error .zeroDivisionError else .ok (.rat (a / b))
  | _, _ => .error .typeError

/-- `np.log`: positive arguments give the symbolic exact logarithm, zero
gives `-inf` and negative arguments give `nan` (numpy only emits a
`RuntimeWarning` in those cases, it does not raise); a non-numeric argument
raises `TypeError`. -/
def npLog (x : Value) : Except PyErr Value :=
  match valNum x with
  | some q =>
    .ok (if q < 0 then .nan else if q = 0 then .negInf else .logPos q)
  | none => .error .typeError

/-- Python `*` restricted to the fragment the claims exercise: ints stay
ints, other numeric pairs multiply exactly, and a numeric left operand with
an IEEE-special or symbolic-log right operand follows IEEE sign rules
(`0 * inf = nan`). -/
def pyMul (x y : Value) : Except PyErr Value :=
  match x, y with
  | .int a, .int b => .ok (.int (a * b))
  | _, _ =>
    match valNum x, valNum y with
    | some a, some b => .ok (.rat (a * b))
    | some a, none =>
      match y with
      | .negInf => .ok (if 0 < a then .negInf else if a < 0 then .posInf else .nan)
      | .posInf => .ok (if 0 < a then .posInf else if a < 0 then .negInf else .nan)
      | .nan => .ok .nan
      | .logPos q => .ok (.scaledLog a q)
      | _ => .error .typeError
    | _, _ => .error .typeError

/-- Splitting a character list on runs of whitespace, dropping empty
tokens, with `acc` the (reversed) token in progress: the semantics of
Python `str.split()` with no argument, whitespace taken as
`Char.isWhitespace`. -/
def splitWsAux : List Char → List Char → List (List Char)
  | [], acc => if acc.isEmpty then [] else [acc.reverse]
  | c :: rest, acc =>
    if c.isWhitespace then
      (if acc.isEmpty then [] else [acc.reverse]) ++ splitWsAux rest []
    else splitWsAux rest (c :: acc)

/-- The whitespace-runs split of a character list. -/
def splitWsChars (l : List Char) : List (List Char) := splitWsAux l []

/-- Python `s.split()`. -/
def pySplitWs (s : String) : List String :=
  (splitWsChars s.data).map (fun cs => String.mk cs)

/-!  ## Built-in mappers

Each mapper's `__call__` is embedded as a function from the received row to
`Except PyErr (Row × List Row)`: the first component is the state of the
received row object after the call (so in-place mutation is observable) and
the second the list of yielded rows. -/

/-- `FilterPunctuation.__call__`: yields a fresh dict in which the chosen
column keeps only alphabetic characters and spaces (the double
comprehension `for word in value for symbol in word` iterates the string's
characters and then each one-character string, i.e. it filters characters);
a non-string value in the column raises `TypeError`.
`Char.isAlpha` stands in for Python's Unicode `str.isalpha`. -/
def filterPunctCall (col : String) (row : Row) : Except PyErr (Row × List Row) := do
  let out ← emapM (fun kv =>
    if kv.1 = col then
      match kv.2 with
      | .str s =>
        .ok (kv.1, Value.str (String.mk (s.data.filter (fun c => c.isAlpha || c = ' '))))
      | _ => .error .typeError
    else .ok kv) row
  .ok (row, [out])

/-- `LowerCase.__call__`: yields a fresh dict with the chosen column
lower-cased (`String.toLower` stands in for Python `str.lower`). -/
def lowerCaseCall (col : String) (row : Row) : Except PyErr (Row × List Row) := do
  let out ← emapM (fun kv =>
    if kv.1 = col then
      match kv.2 with
      | .str s => .ok (kv.1, Value.str s.toLower)
      | _ => .error .typeError
    else .ok kv) row
  .ok (row, [out])

/-- `Split.__call__`: takes `[v.split() for k, v in row.items() if k == column][0]`
(an `IndexError` when the column is absent, `TypeError` when it is not a
string; the stored `separator` is never consulted) and yields one fresh dict
per whitespace token, the token replacing the column's value. -/
def splitCall (col : String) (separator : Option String) (row : Row) :
    Except PyErr (Row × List Row) :=
  match getVal row col with
  | none => .error .indexError
  | some (.str s) =>
    .ok (row, (pySplitWs s).map (fun t =>
      row.map (fun kv => (kv.1, if kv.1 = col then Value.str t else kv.2))))
  | some _ => .error .typeError

/-- `Product.__call__`: multiplies the listed columns into `product`
starting from the int `1`, assigns `row[result_column] = product` in place,
then yields a fresh shallow copy of the (now mutated) row. -/
def productCall (cols : List String) (res : String) (row : Row) :
    Except PyErr (Row × List Row) := do
  let p ← cols.foldlM (fun acc k => do pyMul acc (← getK row k)) (Value.int 1)
  let mutated := dictSet row res p
  .ok (mutated, [mutated])

/-- `Filter.__call__`: yields a fresh copy of the row iff the condition
holds. -/
def filterCall (cond : Row → Bool) (row : Row) : Row × List Row :=
  (row, if cond row then [row] else [])

/-- `Project.__call__`: yields one fresh dict keeping exactly the bindings
whose key is listed; nothing is checked about listed columns missing from
the row. -/
def projectCall (cols : List String) (row : Row) : Row × List Row :=
  (row, [row.filter (fun kv => cols.contains kv.1)])

/-- `TfIdfMapper.__call__`: assigns
`row[result] = row[frequency] * np.log(row[total_doc_count] / row[word_doc_count])`
in place and yields the same (mutated) row object. -/
def tfidfCall (freq tdc wdc res : String) (row : Row) :
    Except PyErr (Row × List Row) := do
  let vf ← getK row freq
  let vt ← getK row tdc
  let vw ← getK row wdc
  let ratio ← pyDiv vt vw
  let lg ← npLog ratio
  let v ← pyMul vf lg
  let mutated := dictSet row res v
  .ok (mutated, [mutated])

/-- `PMIMapper.__call__`: assigns
`row[result] = np.log(row[doc_freq] / row[total_freq])` in place and yields
the same (mutated) row object. -/
def pmiCall (df tf res : String) (row : Row) : Except PyErr (Row × List Row) := do
  let vd ← getK row df
  let vt ← getK row tf
  let ratio ← pyDiv vd vt
  let lg ← npLog ratio
  let mutated := dictSet row res lg
  .ok (mutated, [mutated])

/-- `SpeedMapper.__call__`: assigns
`row[speed] = row[distance] / row[duration]` in place and yields the same
(mutated) row object. -/
def speedCall (dist dur speed : String) (row : Row) :
    Except PyErr (Row × List Row) := do
  let vd ← getK row dist
  let vt ← getK row dur
  let v ← pyDiv vd vt
  let mutated := dictSet row speed v
  .ok (mutated, [mutated])

/-!  ## Operator drivers (`Map`, `Reduce`, `Join`) -/

/-- An abstract reducer: called with the key-column list and one buffered
group, returns the rows it yields. -/
abbrev RedFn := List String → List Row → List Row

/-- An abstract joiner: called with the key-column list, the left group and
the (buffered) right group. -/
abbrev JoinFn := List String → List Row → List Row → List Row

/-- An abstract mapper as seen by the `Map` driver: the rows yielded for one
input row (or a raised exception). -/
abbrev MapFn := Row → Except PyErr (List Row)

/-- `current_key = {k: row[k] for k in self.keys}`, represented as the list
of key-column values in key-list order (two such dicts built from the same
key list are `==` iff the value lists are pairwise `==`). -/
def rowKeyE (keys : List String) (r : Row) : Except PyErr (List Value) :=
  emapM (getK r) keys

/-- The loop body of `Reduce.__call__`: `prev` is `previous_key`, `block`
the buffered `group_block`; on a key change the block is flushed through the
reducer; at end of stream a nonempty block is flushed. -/
def reduceLoop (R : RedFn) (keys : List String) :
    Option (List Value) → List Row → List Row → Except PyErr (List Row)
  | _, block, [] => .ok (if block.isEmpty then [] else R keys block)
  | prev, block, row :: rest => do
    let ck ← rowKeyE keys row
    match prev with
    | none => reduceLoop R keys (some ck) (block ++ [row]) rest
    | some pk =>
      if pyEqK ck pk then reduceLoop R keys (some ck) (block ++ [row]) rest
      else do
        let tail ← reduceLoop R keys (some ck) [row] rest
        .ok (R keys block ++ tail)

/-- `Reduce.__call__`. -/
def reduceCall (R : RedFn) (keys : List String) (rows : List Row) :
    Except PyErr (List Row) :=
  reduceLoop R keys none [] rows

/-- Grouping of a keyed stream into maximal runs of `==`-equal keys, as
`itertools.groupby` produces them (the recorded key is the first element's
key). -/
def chunkRuns : List (List Value × Row) → List (List Value × List Row)
  | [] => []
  | (k, r) :: rest =>
    match chunkRuns rest with
    | [] => [(k, [r])]
    | (k', g) :: gs =>
      if pyEqK k k' then (k, r :: g) :: gs else (k, [r]) :: (k', g) :: gs

/-- `groupby(rows, lambda x: [x[k] for k in keys])`, eagerly: every row's
key list is extracted (raising `KeyError` on a missing column) and the
stream is cut into maximal runs of `==`-equal keys. -/
def runsByKey (keys : List String) (rows : List Row) :
    Except PyErr (List (List Value × List Row)) := do
  let kr ← emapM (fun r => do
    let k ← rowKeyE keys r
    .ok (k, r)) rows
  .ok (chunkRuns kr)

/-- The merge loop of `Join.__call__` over the two grouped streams:
`a < b` emits `joiner(keys, group_a, ∅)` and advances the left side,
`a == b` emits `joiner(keys, group_a, group_b)` and advances both,
otherwise it emits `joiner(keys, ∅, group_b)` and advances the right side;
once a side is exhausted the other side is drained against `∅`. -/
def joinMergeLoop (keys : List String) (J : JoinFn) :
    List (List Value × List Row) → List (List Value × List Row) →
    Except PyErr (List Row)
  | [], gbs => .ok (gbs.flatMap (fun t => J keys [] t.2))
  | (ka, ga) :: gas, [] =>
    .ok (((ka, ga) :: gas).flatMap (fun t => J keys t.2 []))
  | (ka, ga) :: gas, (kb, gb) :: gbs => do
    let lt ← pyLtK ka kb
    if lt then
      let rest ← joinMergeLoop keys J gas ((kb, gb) :: gbs)
      .ok (J keys ga [] ++ rest)
    else if pyEqK ka kb then
      let rest ← joinMergeLoop keys J gas gbs
      .ok (J keys ga gb ++ rest)
    else
      let rest ← joinMergeLoop keys J ((ka, ga) :: gas) gbs
      .ok (J keys [] gb ++ rest)
termination_by gas gbs => gas.length + gbs.length
decreasing_by all_goals simp_arith

/-- `Join.__call__`: group both pre-sorted inputs by the key columns and
run the sort-merge loop. -/
def joinCall (keys : List String) (J : JoinFn) (a b : List Row) :
    Except PyErr (List Row) := do
  let gas ← runsByKey keys a
  let gbs ← runsByKey keys b
  joinMergeLoop keys J gas gbs

/-!  ## Built-in joiners -/

/-- The column names shared by both rows
(`set(row_a.keys()).intersection(set(row_b.keys()))`). -/
def interNames (ra rb : Row) : List String :=
  (rowNames ra).filter (fun k => (rowNames rb).contains k)

/-- The shared non-key columns (`intersection.difference(set(keys))`). -/
def sharedNonKeys (keys : List String) (ra rb : Row) : List String :=
  (interNames ra rb).filter (fun k => !keys.contains k)

/-- The body of `InnerJoiner.__call__` for one matched pair: build
`join_dict` by writing, in order, the columns unique to the left row, the
columns unique to the right row, the key columns (values from the left
row, `KeyError` if absent there), and finally each shared non-key column
twice under the two suffixed names.  (Within each of the four source
loops the written names are distinct, so the arbitrary Python `set`
iteration order does not affect the dict's contents.) -/
def innerMergeRow (sa sb : String) (keys : List String) (ra rb : Row) :
    Except PyErr Row := do
  let inter := interNames ra rb
  let w1 := ra.filter (fun kv => !inter.contains kv.1)
  let w2 := rb.filter (fun kv => !inter.contains kv.1)
  let w3 ← emapM (fun k => do
    let v ← getK ra k
    .ok (k, v)) keys
  let w4 := (sharedNonKeys keys ra rb).flatMap (fun k =>
    [(k ++ sa, (getVal ra k).getD (.int 0)),
     (k ++ sb, (getVal rb k).getD (.int 0))])
  .ok (applyWrites [] (w1 ++ w2 ++ w3 ++ w4))

/-- `InnerJoiner.__call__`: the Cartesian product of the matched groups,
left rows outermost, the right group buffered. -/
def innerJoinerCall (sa sb : String) (keys : List String) (a b : List Row) :
    Except PyErr (List Row) :=
  eflatMapM (fun ra => emapM (fun rb => innerMergeRow sa sb keys ra rb) b) a

/-- `OuterJoiner.__call__`: for each left row, yield it alone when the right
group is empty, else yield `row_a.copy(); update(row_b)` for every right
row; when the left group is empty, yield every right row as-is.  The
configured suffixes are never consulted. -/
def outerJoinerCall (keys : List String) (a b : List Row) : List Row :=
  a.flatMap (fun ra =>
    (if b.isEmpty then [ra] else []) ++ b.map (fun rb => dictUpdate ra rb)) ++
  (if a.isEmpty then b else [])

/-- `LeftJoiner.__call__`: as the outer joiner but without the trailing
unmatched-right clause. -/
def leftJoinerCall (keys : List String) (a b : List Row) : List Row :=
  a.flatMap (fun ra =>
    (if b.isEmpty then [ra] else []) ++ b.map (fun rb => dictUpdate ra rb))

/-- `RightJoiner.__call__`: iterates the right rows outermost and merges
with `row_b.copy(); update(row_a)`. -/
def rightJoinerCall (keys : List String) (a b : List Row) : List Row :=
  b.flatMap (fun rb =>
    (if a.isEmpty then [rb] else []) ++ a.map (fun ra => dictUpdate rb ra))

/-!  ## `TopN` reducer -/

/-- Insertion of an element into a `le`-sorted list. -/
def insSorted (le : α → α → Bool) (a : α) : List α → List α
  | [] => [a]
  | b :: bs => if le a b then a :: b :: bs else b :: insSorted le a bs

/-- Insertion sort by a boolean `le`. -/
def sortLe (le : α → α → Bool) : List α → List α
  | [] => []
  | a :: as => insSorted le a (sortLe le as)

/-- Comparison of heap entries `(-row[col], tiebreak, row)`: the Python
tuple order on the first two components (the third is never reached when
the tiebreaks are distinct). -/
def entryLe (x y : ℚ × ℚ × Row) : Bool :=
  decide (x.1 < y.1) || (decide (x.1 = y.1) && decide (x.2.1 ≤ y.2.1))

/-- Python unary minus on a row value (`-row[col]`): negates a number,
raises `TypeError` otherwise. -/
def pyNeg (x : Value) : Except PyErr ℚ :=
  match valNum x with
  | some q => .ok (-q)
  | none => .error .typeError

/-- `TopN.__call__`: push `(-row[column_max], tiebreak, row)` for every row
(the source uses `np.random.uniform()` as the tiebreak, modelled as an
arbitrary per-index rational `tb`; distinct tiebreaks keep the heap from
ever comparing two row dicts), heapify, and pop `min(n, len(heap))`
entries.  Heapifying and popping `k` times yields the `k` smallest entries
in ascending tuple order, modelled as sorting and taking a prefix. -/
def topNCall (colMax : String) (n : Nat) (tb : Nat → ℚ) (group : List Row) :
    Except PyErr (List Row) := do
  let entries ← emapM (fun p => do
    let v ← getK p.2 colMax
    let q ← pyNeg v
    .ok ((q, tb p.1, p.2) : ℚ × ℚ × Row)) group.enum
  .ok (((sortLe entryLe entries).take (min n entries.length)).map
    (fun e => e.2.2))

/-!  ## Graph plan and execution

The source's `Queue` of stages is a FIFO (`push` appends, `pop` takes the
oldest), and every combinator deep-copies the plan before appending, so a
graph is a value holding its input name and the stage list in construction
order; `gen_run` pops and applies the stages in that order. -/

/-- A stage, as applied by `gen_run`: one stream-to-stream transformer.
(`Join` stages close over the already-run right stream.) -/
abbrev Stage := List Row → Except PyErr (List Row)

/-- A graph value: primary input name plus the stage FIFO. -/
structure Graph where
  kwargName : String
  stages : List Stage

/-- `Graph.graph_from_iter`. -/
def Graph.fromIter (name : String) : Graph := ⟨name, []⟩

/-- The `while graph.queue.size() > 0` loop of `gen_run`: apply the stages
oldest-first. -/
def runStages : List Stage → List Row → Except PyErr (List Row)
  | [], s => .ok s
  | op :: ops, s => do runStages ops (← op s)

/-- `Graph.gen_run` (and, up to `list(...)`, `Graph.run`): resolve the
named input and thread it through the stage FIFO. -/
def Graph.genRun (g : Graph) (inputs : String → List Row) :
    Except PyErr (List Row) :=
  runStages g.stages (inputs g.kwargName)

/-- `Map.__call__` as a stage: `for row in rows: yield from mapper(row)`. -/
def mapStage (m : MapFn) : Stage := fun rows => eflatMapM m rows

/-- `Graph.map`: deep-copy the plan and push a `Map` stage. -/
def Graph.map (g : Graph) (m : MapFn) : Graph :=
  ⟨g.kwargName, g.stages ++ [mapStage m]⟩

/-!  ## Specification-side definitions

These follow the words of the specification, independently of the
implementation, and are compared with it in the claim theorems. -/

/-- Two rows agree on every listed key column (both present, values
Python-`==`). -/
def keyAgree (keys : List String) (r1 r2 : Row) : Bool :=
  keys.all (fun k =>
    match getVal r1 k, getVal r2 k with
    | some v1, some v2 => pyEqV v1 v2
    | _, _ => false)

/-- The maximal runs of consecutive rows agreeing on the key columns: the
specification's notion of a group for `Reduce`. -/
def runsSpec (keys : List String) : List Row → List (List Row)
  | [] => []
  | r :: rs =>
    match runsSpec keys rs with
    | [] => [[r]]
    | [] :: gs => [r] :: [] :: gs
    | (r2 :: g) :: gs =>
      if keyAgree keys r r2 then (r :: r2 :: g) :: gs
      else [r] :: (r2 :: g) :: gs

/-- The specification's merge protocol for the join driver, on the two
grouped inputs: one cell per distinct key in ascending order — the smaller
key's group paired with the empty group, equal keys paired together, and an
exhausted side drained against empty groups. -/
def cogroupSpec :
    List (List Value × List Row) → List (List Value × List Row) →
    List (List Value × List Row × List Row)
  | [], gbs => gbs.map (fun t => (t.1, [], t.2))
  | (ka, ga) :: gas, [] => ((ka, ga) :: gas).map (fun t => (t.1, t.2, []))
  | (ka, ga) :: gas, (kb, gb) :: gbs =>
    if kLtB ka kb then (ka, ga, []) :: cogroupSpec gas ((kb, gb) :: gbs)
    else if pyEqK ka kb then (ka, ga, gb) :: cogroupSpec gas gbs
    else (kb, [], gb) :: cogroupSpec ((ka, ga) :: gas) gbs
termination_by gas gbs => gas.length + gbs.length
decreasing_by all_goals simp_arith

/-- The specification's left-major Cartesian enumeration of a matched cell:
all pairs for the first left row precede all pairs for the second. -/
def pairsLeftMajor (a b : List Row) : List (Row × Row) :=
  a.flatMap (fun ra => b.map (fun rb => (ra, rb)))

/-!  ## Basic lemmas about the dict and monad helpers -/

theorem ebind_ok (a : α) (f : α → Except PyErr β) :
    ((Except.ok a : Except PyErr α) >>= f) = f a := rfl

theorem ebind_error (e : PyErr) (f : α → Except PyErr β) :
    ((Except.error e : Except PyErr α) >>= f) = .error e := rfl

theorem emapM_ok_length {f : α → Except PyErr β} {l : List α} {out : List β}
    (h : emapM f l = .ok out) : out.length = l.length := by
  induction l generalizing out with
  | nil =>
    simp only [emapM, Except.ok.injEq] at h
    subst h; rfl
  | cons a as ih =>
    simp only [emapM] at h
    cases hfa : f a with
    | error e => rw [hfa, ebind_error] at h; exact Except.noConfusion h
    | ok b =>
      rw [hfa, ebind_ok] at h
      cases hrest : emapM f as with
      | error e => rw [hrest, ebind_error] at h; exact Except.noConfusion h
      | ok bs =>
        rw [hrest, ebind_ok, Except.ok.injEq] at h
        subst h
        simp [ih hrest]

theorem emapM_ok_of_forall {f : α → Except PyErr β} {g : α → β} {l : List α}
    (h : ∀ x ∈ l, f x = .ok (g x)) : emapM f l = .ok (l.map g) := by
  induction l with
  | nil => simp [emapM]
  | cons a as ih =>
    simp only [emapM, List.map_cons]
    rw [h a (by simp), ebind_ok, ih (fun x hx => h x (by simp [hx])), ebind_ok]

theorem emapM_ok_mem {f : α → Except PyErr β} {l : List α} {out : List β}
    (h : emapM f l = .ok out) :
    ∀ b ∈ out, ∃ a ∈ l, f a = .ok b := by
  induction l generalizing out with
  | nil =>
    simp only [emapM, Except.ok.injEq] at h
    subst h; simp
  | cons a as ih =>
    simp only [emapM] at h
    cases hfa : f a with
    | error e => rw [hfa, ebind_error] at h; exact Except.noConfusion h
    | ok b0 =>
      rw [hfa, ebind_ok] at h
      cases hrest : emapM f as with
      | error e => rw [hrest, ebind_error] at h; exact Except.noConfusion h
      | ok bs =>
        rw [hrest, ebind_ok, Except.ok.injEq] at h
        subst h
        intro b hb
        rcases List.mem_cons.mp hb with hb | hb
        · exact ⟨a, by simp, by rw [hfa, hb]⟩
        · rcases ih hrest b hb with ⟨x, hx, hfx⟩
          exact ⟨x, by simp [hx], hfx⟩

theorem eflatMapM_ok_of_forall {f : α → Except PyErr (List β)}
    {g : α → List β} {l : List α}
    (h : ∀ x ∈ l, f x = .ok (g x)) : eflatMapM f l = .ok (l.flatMap g) := by
  induction l with
  | nil => simp [eflatMapM]
  | cons a as ih =>
    simp only [eflatMapM, List.flatMap_cons]
    rw [h a (by simp), ebind_ok, ih (fun x hx => h x (by simp [hx])), ebind_ok]

theorem getVal_dictSet_self (d : Row) (k : String) (v : Value) :
    getVal (dictSet d k v) k = some v := by
  induction d with
  | nil => simp [dictSet, getVal]
  | cons kv rest ih =>
    by_cases hk : kv.1 = k
    · simp [dictSet, hk, getVal]
    · simp [dictSet, hk, getVal, ih]

theorem getVal_dictSet_ne (d : Row) (k c : String) (v : Value) (h : k ≠ c) :
    getVal (dictSet d k v) c = getVal d c := by
  induction d with
  | nil => simp [dictSet, getVal, h]
  | cons kv rest ih =>
    by_cases hk : kv.1 = k
    · simp [dictSet, hk, getVal, h]
    · simp [dictSet, hk, getVal]
      by_cases hc : kv.1 = c <;> simp [hc, ih]

theorem applyWrites_append (d : Row) (w1 w2 : List (String × Value)) :
    applyWrites d (w1 ++ w2) = applyWrites (applyWrites d w1) w2 := by
  simp [applyWrites, List.foldl_append]

theorem applyWrites_cons (d : Row) (kv : String × Value)
    (ws : List (String × Value)) :
    applyWrites d (kv :: ws) = applyWrites (dictSet d kv.1 kv.2) ws := rfl

theorem getVal_applyWrites_not_mem (d : Row) (ws : List (String × Value))
    (c : String) (h : ∀ kv ∈ ws, kv.1 ≠ c) :
    getVal (applyWrites d ws) c = getVal d c := by
  induction ws generalizing d with
  | nil => rfl
  | cons kv rest ih =>
    rw [applyWrites_cons, ih _ (fun x hx => h x (by simp [hx])),
      getVal_dictSet_ne _ _ _ _ (h kv (by simp))]

/-- The value of a column after a write sequence: the last write to that
column wins, and in its absence the original binding shows through. -/
theorem getVal_applyWrites (d : Row) (ws : List (String × Value)) (c : String) :
    getVal (applyWrites d ws) c =
      match (ws.filter (fun kv => kv.1 = c)).getLast? with
      | some kv => some kv.2
      | none => getVal d c := by
  induction ws using List.reverseRecOn generalizing d with
  | nil => rfl
  | append_singleton ws kv ih =>
    have hsnoc : applyWrites d (ws ++ [kv]) =
        dictSet (applyWrites d ws) kv.1 kv.2 := by
      rw [applyWrites_append]; rfl
    rw [hsnoc]
    by_cases hk : kv.1 = c
    · have h1 : getVal (dictSet (applyWrites d ws) kv.1 kv.2) c = some kv.2 := by
        rw [hk]; exact getVal_dictSet_self _ _ _
      rw [h1, List.filter_append]
      simp [hk]
    · rw [getVal_dictSet_ne _ _ _ _ hk, ih, List.filter_append]
      simp [hk]

theorem ebind_ok_iff {e : Except PyErr α} {f : α → Except PyErr β} {b : β} :
    (e >>= f) = .ok b ↔ ∃ a, e = .ok a ∧ f a = .ok b := by
  cases e with
  | error err => simp [ebind_error]
  | ok a => simp [ebind_ok]

theorem getVal_filter_key (row : Row) (p : String → Bool) (c : String) :
    getVal (row.filter (fun kv => p kv.1)) c =
      if p c then getVal row c else none := by
  induction row with
  | nil => simp [getVal]
  | cons kv rest ih =>
    by_cases hp : p kv.1
    · by_cases hc : kv.1 = c
      · subst hc
        simp [List.filter_cons, hp, getVal]
      · simp [List.filter_cons, hp, getVal, hc, ih]
    · by_cases hc : kv.1 = c
      · subst hc
        simp [List.filter_cons, hp, getVal, ih]
      · simp [List.filter_cons, hp, getVal, hc, ih]

theorem length_dictSet_not_mem (d : Row) (k : String) (v : Value)
    (h : k ∉ rowNames d) : (dictSet d k v).length = d.length + 1 := by
  induction d with
  | nil => simp [dictSet]
  | cons kv rest ih =>
    have hk : kv.1 ≠ k := fun he => h (by simp [rowNames, he])
    simp only [dictSet, if_neg hk, List.length_cons]
    rw [ih (fun hm => h (by simp [rowNames] at hm ⊢; exact Or.inr hm))]

theorem dictSet_ne_of_not_mem (d : Row) (k : String) (v : Value)
    (h : k ∉ rowNames d) : dictSet d k v ≠ d := by
  intro he
  have := length_dictSet_not_mem d k v h
  rw [he] at this
  omega

/-!  ## C3: `Project` -/

/-- C3 counterexample: `Project(["a", "b"])` on the row `{a: 1}` — the
listed column `b` is missing, yet the call succeeds and yields one row that
simply lacks `b`; no error of any kind is raised, contradicting the claim
that a missing listed column is fatal. -/
theorem project_missing_column_counterexample :
    projectCall ["a", "b"] [("a", Value.int 1)] =
      ([("a", Value.int 1)], [[("a", Value.int 1)]]) ∧
    getVal [("a", Value.int 1)] "b" = none := by
  exact ⟨rfl, rfl⟩

/-- C3 (amended): for every input row, `Project(cols)` totally succeeds and
emits exactly one row whose bindings are precisely the listed columns that
are present in the input (with their input values); listed columns missing
from the input are silently omitted rather than being a fatal error. -/
theorem project_emits_one_row_with_listed_columns (cols : List String) (row : Row) :
    projectCall cols row =
      (row, [row.filter (fun kv => cols.contains kv.1)]) ∧
    ∀ c, getVal (row.filter (fun kv => cols.contains kv.1)) c =
      if cols.contains c then getVal row c else none := by
  exact ⟨rfl, fun c => getVal_filter_key row (fun k => cols.contains k) c⟩

/-!  ## C10: `Split` ignores its separator -/

theorem splitWsAux_props (l : List Char) :
    ∀ acc, (∀ c ∈ acc, c.isWhitespace = false) →
      ∀ t ∈ splitWsAux l acc, t ≠ [] ∧ ∀ c ∈ t, c.isWhitespace = false := by
  induction l with
  | nil =>
    intro acc hacc t ht
    by_cases h : acc.isEmpty
    · simp [splitWsAux, h] at ht
    · simp only [splitWsAux, if_neg h, List.mem_singleton] at ht
      subst ht
      refine ⟨?_, ?_⟩
      · simp only [ne_eq, List.reverse_eq_nil_iff]
        intro he
        rw [he] at h
        exact h rfl
      · intro c hc
        exact hacc c (List.mem_reverse.mp hc)
  | cons c rest ih =>
    intro acc hacc t ht
    by_cases hw : c.isWhitespace
    · rw [splitWsAux, if_pos hw] at ht
      rcases List.mem_append.mp ht with ht | ht
      · by_cases h : acc.isEmpty
        · simp [h] at ht
        · simp only [if_neg h, List.mem_singleton] at ht
          subst ht
          refine ⟨?_, fun d hd => hacc d (List.mem_reverse.mp hd)⟩
          simp only [ne_eq, List.reverse_eq_nil_iff]
          intro he
          rw [he] at h
          exact h rfl
      · exact ih [] (by simp) t ht
    · rw [splitWsAux, if_neg hw] at ht
      refine ih (c :: acc) ?_ t ht
      intro d hd
      rcases List.mem_cons.mp hd with hd | hd
      · subst hd; simpa using hw
      · exact hacc d hd

theorem splitWsChars_props (l : List Char) :
    ∀ t ∈ splitWsChars l, t ≠ [] ∧ ∀ c ∈ t, c.isWhitespace = false :=
  splitWsAux_props l [] (by simp)

theorem pySplitWs_props (s : String) :
    ∀ t ∈ pySplitWs s, t ≠ "" ∧ ∀ c ∈ t.data, c.isWhitespace = false := by
  intro t ht
  simp only [pySplitWs, List.mem_map] at ht
  rcases ht with ⟨cs, hcs, hmk⟩
  rcases splitWsChars_props s.data cs hcs with ⟨hne, hnw⟩
  subst hmk
  constructor
  · intro he
    exact hne (congrArg String.data he)
  · intro c hc
    exact hnw c hc

/-- C10: `Split(column, separator)` ignores the stored separator entirely —
for any two separator arguments the call behaves identically — and when the
column holds a string it yields, without error, one row per token of a
whitespace-runs split of that string (each token non-empty and
whitespace-free, i.e. empty tokens are dropped), the token replacing the
column value and every other binding kept unchanged. -/
theorem split_ignores_separator (col : String) (sep sep' : Option String)
    (row : Row) (s : String) (h : getVal row col = some (.str s)) :
    splitCall col sep row = splitCall col sep' row ∧
    splitCall col sep row = .ok (row,
      (pySplitWs s).map (fun t =>
        row.map (fun kv => (kv.1, if kv.1 = col then Value.str t else kv.2)))) ∧
    ∀ t ∈ pySplitWs s, t ≠ "" ∧ ∀ c ∈ t.data, c.isWhitespace = false := by
  refine ⟨rfl, ?_, pySplitWs_props s⟩
  rw [splitCall, h]

/-- Witness for `split_ignores_separator` at the row
`{text: "a  bc ", id: 7}` with separators `","` and `none`. -/
theorem split_ignores_separator_witness :
    getVal [("text", Value.str "a  bc "), ("id", Value.int 7)] "text" =
      some (.str "a  bc ") ∧
    splitCall "text" (some ",") [("text", Value.str "a  bc "), ("id", Value.int 7)] =
      splitCall "text" none [("text", Value.str "a  bc "), ("id", Value.int 7)] ∧
    splitCall "text" (some ",") [("text", Value.str "a  bc "), ("id", Value.int 7)] =
      .ok ([("text", Value.str "a  bc "), ("id", Value.int 7)],
        [[("text", Value.str "a"), ("id", Value.int 7)],
         [("text", Value.str "bc"), ("id", Value.int 7)]]) := by
  have h := split_ignores_separator "text" (some ",") none
    [("text", Value.str "a  bc "), ("id", Value.int 7)] "a  bc " rfl
  refine ⟨rfl, h.1, ?_⟩
  rw [h.2.1]
  rfl

/-!  ## C2: which built-in mappers mutate their input row -/

/-- C2 counterexample: `SpeedMapper("dist", "dur", "speed")` on the row
`{dist: 10, dur: 2}` — after the call the row object it received carries a
new `speed` binding, i.e. the input row was mutated in place (and is the
very object yielded), contradicting the claim that no built-in mapper
mutates its input. -/
theorem speed_mapper_mutates_counterexample :
    speedCall "dist" "dur" "speed" [("dist", Value.int 10), ("dur", Value.int 2)] =
      .ok ([("dist", Value.int 10), ("dur", Value.int 2), ("speed", Value.rat 5)],
        [[("dist", Value.int 10), ("dur", Value.int 2), ("speed", Value.rat 5)]]) ∧
    [("dist", Value.int 10), ("dur", Value.int 2), ("speed", Value.rat 5)] ≠
      [("dist", Value.int 10), ("dur", Value.int 2)] := by
  refine ⟨?_, by decide⟩
  rw [show (5 : ℚ) = ((10 : Int) : ℚ) / ((2 : Int) : ℚ) by norm_num]
  rfl

/-- C2 (amended): the row-rewriting mappers (`FilterPunctuation`,
`LowerCase`, `Split`, `Filter`, `Project`) yield fresh rows and leave the
received row unchanged, but the numeric mappers (`Product`, `TfIdfMapper`,
`PMIMapper`, `SpeedMapper`) assign their result column into the received
row in place — so whenever the result column was not already present, the
input row observed after the call differs from the one passed in. -/
theorem builtin_mapper_mutation (colF colL colS res dst dur spd df tf freq tdc
    wdc : String) (sep : Option String) (cols : List String) (cond : Row → Bool)
    (row : Row) (pr : Row × List Row) :
    (filterPunctCall colF row = .ok pr → pr.1 = row) ∧
    (lowerCaseCall colL row = .ok pr → pr.1 = row) ∧
    (splitCall colS sep row = .ok pr → pr.1 = row) ∧
    (filterCall cond row).1 = row ∧
    (projectCall cols row).1 = row ∧
    (productCall cols res row = .ok pr →
      ∃ v, pr.1 = dictSet row res v ∧ (res ∉ rowNames row → pr.1 ≠ row)) ∧
    (tfidfCall freq tdc wdc res row = .ok pr →
      ∃ v, pr.1 = dictSet row res v ∧ (res ∉ rowNames row → pr.1 ≠ row)) ∧
    (pmiCall df tf res row = .ok pr →
      ∃ v, pr.1 = dictSet row res v ∧ (res ∉ rowNames row → pr.1 ≠ row)) ∧
    (speedCall dst dur spd row = .ok pr →
      ∃ v, pr.1 = dictSet row spd v ∧ (spd ∉ rowNames row → pr.1 ≠ row)) := by
  refine ⟨?_, ?_, ?_, rfl, rfl, ?_, ?_, ?_, ?_⟩
  · intro h
    rw [filterPunctCall] at h
    rw [ebind_ok_iff] at h
    rcases h with ⟨out, _, hout⟩
    simp only [Except.ok.injEq] at hout
    rw [← hout]
  · intro h
    rw [lowerCaseCall] at h
    rw [ebind_ok_iff] at h
    rcases h with ⟨out, _, hout⟩
    simp only [Except.ok.injEq] at hout
    rw [← hout]
  · intro h
    rw [splitCall] at h
    cases hg : getVal row colS with
    | none => rw [hg] at h; exact Except.noConfusion h
    | some v =>
      rw [hg] at h
      cases v with
      | str s =>
        simp only [Except.ok.injEq] at h
        rw [← h]
      | int a => exact Except.noConfusion h
      | rat a => exact Except.noConfusion h
      | logPos a => exact Except.noConfusion h
      | scaledLog a b => exact Except.noConfusion h
      | posInf => exact Except.noConfusion h
      | negInf => exact Except.noConfusion h
      | nan => exact Except.noConfusion h
  · intro h
    rw [productCall] at h
    rw [ebind_ok_iff] at h
    rcases h with ⟨p, _, hout⟩
    simp only [Except.ok.injEq] at hout
    exact ⟨p, by rw [← hout], fun hm => by rw [← hout]; exact dictSet_ne_of_not_mem _ _ _ hm⟩
  · intro h
    rw [tfidfCall] at h
    simp only [ebind_ok_iff] at h
    rcases h with ⟨vf, _, vt, _, vw, _, ratio, _, lg, _, v, _, hout⟩
    simp only [Except.ok.injEq] at hout
    exact ⟨v, by rw [← hout], fun hm => by rw [← hout]; exact dictSet_ne_of_not_mem _ _ _ hm⟩
  · intro h
    rw [pmiCall] at h
    simp only [ebind_ok_iff] at h
    rcases h with ⟨vd, _, vt, _, ratio, _, lg, _, hout⟩
    simp only [Except.ok.injEq] at hout
    exact ⟨lg, by rw [← hout], fun hm => by rw [← hout]; exact dictSet_ne_of_not_mem _ _ _ hm⟩
  · intro h
    rw [speedCall] at h
    simp only [ebind_ok_iff] at h
    rcases h with ⟨vd, _, vt, _, v, _, hout⟩
    simp only [Except.ok.injEq] at hout
    exact ⟨v, by rw [← hout], fun hm => by rw [← hout]; exact dictSet_ne_of_not_mem _ _ _ hm⟩

/-- Witness for `builtin_mapper_mutation`: at the row `{dist: 10, dur: 2}`
the pure mappers return the row unchanged and `SpeedMapper` returns a row
that differs from it. -/
theorem builtin_mapper_mutation_witness :
    (speedCall "dist" "dur" "speed" [("dist", Value.int 10), ("dur", Value.int 2)] =
      .ok ([("dist", Value.int 10), ("dur", Value.int 2), ("speed", Value.rat 5)],
        [[("dist", Value.int 10), ("dur", Value.int 2), ("speed", Value.rat 5)]])) ∧
    (∃ v, [("dist", Value.int 10), ("dur", Value.int 2), ("speed", Value.rat 5)] =
        dictSet [("dist", Value.int 10), ("dur", Value.int 2)] "speed" v ∧
      ("speed" ∉ rowNames [("dist", Value.int 10), ("dur", Value.int 2)] →
        [("dist", Value.int 10), ("dur", Value.int 2), ("speed", Value.rat 5)] ≠
          [("dist", Value.int 10), ("dur", Value.int 2)])) := by
  have hs : speedCall "dist" "dur" "speed"
      [("dist", Value.int 10), ("dur", Value.int 2)] =
      .ok ([("dist", Value.int 10), ("dur", Value.int 2), ("speed", Value.rat 5)],
        [[("dist", Value.int 10), ("dur", Value.int 2), ("speed", Value.rat 5)]]) := by
    rw [show (5 : ℚ) = ((10 : Int) : ℚ) / ((2 : Int) : ℚ) by norm_num]
    rfl
  refine ⟨hs, ?_⟩
  have h := builtin_mapper_mutation "c" "c" "c" "res" "dist" "dur" "speed" "df"
    "tf" "freq" "tdc" "wdc" none [] (fun _ => true)
    [("dist", Value.int 10), ("dur", Value.int 2)]
    ([("dist", Value.int 10), ("dur", Value.int 2), ("speed", Value.rat 5)],
      [[("dist", Value.int 10), ("dur", Value.int 2), ("speed", Value.rat 5)]])
  exact h.2.2.2.2.2.2.2.2 hs

/-!  ## C8: fusing two chained `Map` stages -/

theorem eflatMapM_append (f : α → Except PyErr (List β)) (l1 l2 : List α) :
    eflatMapM f (l1 ++ l2) =
      (eflatMapM f l1 >>= fun a =>
        (eflatMapM f l2 >>= fun b => Except.ok (a ++ b))) := by
  induction l1 with
  | nil =>
    simp only [List.nil_append, eflatMapM, ebind_ok]
    cases eflatMapM f l2 with
    | error e => rfl
    | ok b => simp [ebind_ok]
  | cons a as ih =>
    simp only [List.cons_append, eflatMapM]
    cases f a with
    | error e => simp only [ebind_error]
    | ok bs =>
      simp only [ebind_ok]
      rw [show (as.append l2) = as ++ l2 from rfl, ih]
      cases eflatMapM f as with
      | error e => simp only [ebind_error]
      | ok r1 =>
        simp only [ebind_ok]
        cases eflatMapM f l2 with
        | error e => simp only [ebind_error]
        | ok r2 => simp [ebind_ok, List.append_assoc]

/-- Success-level fusion of two `Map` stages: the chained pipeline yields a
stream iff the composed mapper yields it.  (The pipelines are lazy
generators in the source, so a raised exception surfaces identically in
both shapes; only successful streams are compared here.) -/
theorem eflatMapM_fuse_ok (m1 m2 : MapFn) (s : List Row) (out : List Row) :
    (eflatMapM m1 s >>= fun t => eflatMapM m2 t) = .ok out ↔
      eflatMapM (fun r => m1 r >>= fun l => eflatMapM m2 l) s = .ok out := by
  induction s generalizing out with
  | nil =>
    simp only [eflatMapM, ebind_ok]
  | cons a as ih =>
    constructor
    · intro h
      rw [ebind_ok_iff] at h
      rcases h with ⟨t, h1, h2⟩
      simp only [eflatMapM] at h1
      rw [ebind_ok_iff] at h1
      rcases h1 with ⟨bs, hbs, h1⟩
      rw [ebind_ok_iff] at h1
      rcases h1 with ⟨r1, hr1, h1⟩
      have ht : t = bs ++ r1 := (Except.ok.inj h1).symm
      subst ht
      rw [eflatMapM_append, ebind_ok_iff] at h2
      rcases h2 with ⟨c1, hc1, h2⟩
      rw [ebind_ok_iff] at h2
      rcases h2 with ⟨c2, hc2, h2⟩
      have hout : out = c1 ++ c2 := (Except.ok.inj h2).symm
      subst hout
      simp only [eflatMapM]
      rw [ebind_ok_iff]
      refine ⟨c1, ?_, ?_⟩
      · rw [hbs, ebind_ok]; exact hc1
      · rw [ebind_ok_iff]
        refine ⟨c2, ?_, rfl⟩
        refine (ih c2).mp ?_
        rw [hr1, ebind_ok]
        exact hc2
    · intro h
      simp only [eflatMapM] at h
      rw [ebind_ok_iff] at h
      rcases h with ⟨c1, hc1, h⟩
      rw [ebind_ok_iff] at h
      rcases h with ⟨c2, hc2, h⟩
      have hout : out = c1 ++ c2 := (Except.ok.inj h).symm
      subst hout
      rw [ebind_ok_iff] at hc1
      rcases hc1 with ⟨bs, hbs, hc1⟩
      have h2 := (ih c2).mpr hc2
      rw [ebind_ok_iff] at h2
      rcases h2 with ⟨r1, hr1, h2⟩
      rw [ebind_ok_iff]
      refine ⟨bs ++ r1, ?_, ?_⟩
      · simp only [eflatMapM]
        rw [hbs, ebind_ok, hr1, ebind_ok]
      · rw [eflatMapM_append, hc1, ebind_ok, h2, ebind_ok]

theorem runStages_append (l1 l2 : List Stage) (s : List Row) :
    runStages (l1 ++ l2) s =
      (runStages l1 s >>= fun t => runStages l2 t) := by
  induction l1 generalizing s with
  | nil => simp [runStages, ebind_ok]
  | cons op ops ih =>
    simp only [List.cons_append, runStages]
    cases op s with
    | error e => simp only [ebind_error]
    | ok t => simp only [ebind_ok]; exact ih t

theorem runStages_map_stage (m : MapFn) (s : List Row) :
    runStages [mapStage m] s = eflatMapM m s := by
  show (eflatMapM m s >>= fun t => Except.ok t) = eflatMapM m s
  cases eflatMapM m s with
  | error e => rfl
  | ok t => rfl

/-- C8: chaining two `Map` stages is the same plan as one `Map` stage with
the composed mapper — for every graph, every pair of mappers, every
assignment of input streams and every row sequence `out`,
`G.map(m1).map(m2)` produces `out` iff `G.map(m)` does, where `m` applies
`m2` to every row `m1` emits and concatenates the results in order. -/
theorem map_map_fusion (g : Graph) (inputs : String → List Row) (m1 m2 : MapFn)
    (out : List Row) :
    ((g.map m1).map m2).genRun inputs = .ok out ↔
      (g.map (fun r => m1 r >>= fun l => eflatMapM m2 l)).genRun inputs = .ok out := by
  simp only [Graph.genRun, Graph.map]
  rw [runStages_append, runStages_append, runStages_append]
  cases runStages g.stages (inputs g.kwargName) with
  | error e =>
    rw [ebind_error, ebind_error, ebind_error]
  | ok s =>
    rw [ebind_ok, ebind_ok]
    have hmid : (runStages [mapStage m2]) = fun t => eflatMapM m2 t := by
      funext t; exact runStages_map_stage m2 t
    rw [runStages_map_stage, runStages_map_stage, hmid]
    exact eflatMapM_fuse_ok m1 m2 s out

/-!  ## C9: numeric error conditions -/

theorem pyDiv_num {xa xb : Value} {a b : ℚ} (ha : valNum xa = some a)
    (hb : valNum xb = some b) :
    pyDiv xa xb =
      if b = 0 then .error .zeroDivisionError else .ok (.rat (a / b)) := by
  rw [pyDiv, ha, hb]

theorem npLog_num {x : Value} {q : ℚ} (h : valNum x = some q) :
    npLog x =
      .ok (if q < 0 then .nan else if q = 0 then .negInf else .logPos q) := by
  rw [npLog, h]

/-- C9 counterexample: `PMIMapper("df", "tf", "res")` on the row
`{df: 0, tf: 1}` — the logarithm argument `0/1 = 0` is non-positive, yet
the mapper does not raise: `np.log(0)` is `-inf` (with only a warning) and
the mapper yields a row carrying `-inf` in the result column,
contradicting the claim that a non-positive logarithm argument is a fatal
error. -/
theorem pmi_log_nonpositive_counterexample :
    pmiCall "df" "tf" "res" [("df", Value.int 0), ("tf", Value.int 1)] =
      .ok ([("df", Value.int 0), ("tf", Value.int 1), ("res", Value.negInf)],
        [[("df", Value.int 0), ("tf", Value.int 1), ("res", Value.negInf)]]) := by
  rw [pmiCall]
  rw [show getK [("df", Value.int 0), ("tf", Value.int 1)] "df" =
    .ok (Value.int 0) from rfl, ebind_ok]
  rw [show getK [("df", Value.int 0), ("tf", Value.int 1)] "tf" =
    .ok (Value.int 1) from rfl, ebind_ok]
  rw [pyDiv_num (show valNum (Value.int 0) = some 0 by norm_num [valNum])
    (show valNum (Value.int 1) = some 1 by norm_num [valNum])]
  rw [if_neg (by norm_num : ¬ (1 : ℚ) = 0), ebind_ok]
  rw [npLog_num (show valNum (Value.rat ((0 : ℚ) / 1)) = some ((0 : ℚ) / 1)
    from rfl)]
  rw [if_neg (by norm_num : ¬ (0 : ℚ) / 1 < 0),
    if_pos (by norm_num : (0 : ℚ) / 1 = 0), ebind_ok]
  rfl

/-- C9 (amended): division by zero is fatal — `SpeedMapper`, `PMIMapper`
and `TfIdfMapper` raise `ZeroDivisionError` on a zero divisor — but a
non-positive logarithm argument is not: `PMIMapper` (and, scaled, the
`TfIdfMapper`) yields a row whose result column is `nan` for a negative
argument and `-inf` for a zero argument instead of raising. -/
theorem numeric_error_conditions (dist dur spd df tf res freq tdc wdc : String)
    (row : Row) (xd xt : Value) (a b : ℚ) :
    (getVal row dist = some xd → valNum xd = some a →
      getVal row dur = some xt → valNum xt = some 0 →
      speedCall dist dur spd row = .error .zeroDivisionError) ∧
    (getVal row df = some xd → valNum xd = some a →
      getVal row tf = some xt → valNum xt = some 0 →
      pmiCall df tf res row = .error .zeroDivisionError) ∧
    (getVal row freq = some xd →
      getVal row tdc = some xt → valNum xt = some a →
      (∃ xw, getVal row wdc = some xw ∧ valNum xw = some 0) →
      tfidfCall freq tdc wdc res row = .error .zeroDivisionError) ∧
    (getVal row df = some xd → valNum xd = some a →
      getVal row tf = some xt → valNum xt = some b → b ≠ 0 → a / b ≤ 0 →
      pmiCall df tf res row =
        .ok (dictSet row res (if a / b < 0 then Value.nan else Value.negInf),
          [dictSet row res (if a / b < 0 then Value.nan else Value.negInf)])) := by
  refine ⟨?_, ?_, ?_, ?_⟩
  · intro h1 h2 h3 h4
    rw [speedCall, getK, h1, getK, h3, ebind_ok, ebind_ok, pyDiv_num h2 h4,
      if_pos rfl, ebind_error]
  · intro h1 h2 h3 h4
    rw [pmiCall, getK, h1, getK, h3, ebind_ok, ebind_ok, pyDiv_num h2 h4,
      if_pos rfl, ebind_error]
  · intro h1 h3 h4 hw
    rcases hw with ⟨xw, hw1, hw2⟩
    rw [tfidfCall, getK, h1, getK, h3, getK, hw1, ebind_ok, ebind_ok, ebind_ok,
      pyDiv_num h4 hw2, if_pos rfl, ebind_error]
  · intro h1 h2 h3 h4 hb hr
    rw [pmiCall, getK, h1, getK, h3, ebind_ok, ebind_ok, pyDiv_num h2 h4,
      if_neg hb, ebind_ok,
      npLog_num (show valNum (Value.rat (a / b)) = some (a / b) from rfl)]
    by_cases hlt : a / b < 0
    · rw [if_pos hlt, ebind_ok, if_pos hlt]
    · have hz : a / b = 0 := le_antisymm hr (not_lt.mp hlt)
      rw [if_neg hlt, if_pos hz, ebind_ok, if_neg hlt]

/-- Witness for `numeric_error_conditions`: `SpeedMapper` raises
`ZeroDivisionError` on `{dist: 3, dur: 0}` and `PMIMapper` yields a `nan`
row on `{df: -2, tf: 1}`. -/
theorem numeric_error_conditions_witness :
    (getVal [("dist", Value.int 3), ("dur", Value.int 0)] "dist" =
        some (Value.int 3) ∧
      valNum (Value.int 3) = some 3 ∧
      getVal [("dist", Value.int 3), ("dur", Value.int 0)] "dur" =
        some (Value.int 0) ∧
      valNum (Value.int 0) = some 0 ∧
      speedCall "dist" "dur" "spd" [("dist", Value.int 3), ("dur", Value.int 0)] =
        .error .zeroDivisionError) ∧
    pmiCall "df" "tf" "res" [("df", Value.int (-2)), ("tf", Value.int 1)] =
      .ok ([("df", Value.int (-2)), ("tf", Value.int 1), ("res", Value.nan)],
        [[("df", Value.int (-2)), ("tf", Value.int 1), ("res", Value.nan)]]) := by
  constructor
  · refine ⟨by decide, by decide, by decide, by decide, ?_⟩
    exact (numeric_error_conditions "dist" "dur" "spd" "df" "tf" "res" "freq"
      "tdc" "wdc" [("dist", Value.int 3), ("dur", Value.int 0)]
      (Value.int 3) (Value.int 0) 3 0).1 (by decide) (by decide) (by decide)
      (by decide)
  · have h := (numeric_error_conditions "dist" "dur" "spd" "df" "tf" "res"
      "freq" "tdc" "wdc" [("df", Value.int (-2)), ("tf", Value.int 1)]
      (Value.int (-2)) (Value.int 1) (-2) 1).2.2.2 (by decide) (by decide)
      (by decide) (by decide) (by norm_num) (by norm_num)
    rw [if_pos (by norm_num : (-2 : ℚ) / 1 < 0)] at h
    rw [h]
    rfl

/-!  ## C7: Cartesian-product enumeration order of the joiners -/

theorem flatMap_uniform_length {X : List α} {g : α → List β} {m : Nat}
    (hg : ∀ x ∈ X, (g x).length = m) :
    (X.flatMap g).length = X.length * m := by
  induction X with
  | nil => simp
  | cons a X ih =>
    simp only [List.flatMap_cons, List.length_append, List.length_cons]
    rw [hg a (by simp), ih (fun x hx => hg x (by simp [hx])), Nat.succ_mul,
      Nat.add_comm]

theorem flatMap_uniform_getElem {X : List α} {g : α → List β} {m : Nat}
    (hg : ∀ x ∈ X, (g x).length = m) (i j : Nat) (hi : i < X.length)
    (hj : j < m) :
    (X.flatMap g)[i * m + j]? = (g X[i])[j]? := by
  induction X generalizing i with
  | nil => simp at hi
  | cons a X ih =>
    cases i with
    | zero =>
      simp only [List.flatMap_cons, Nat.zero_mul, Nat.zero_add]
      rw [List.getElem?_append_left (by rw [hg a (by simp)]; exact hj)]
      rfl
    | succ i' =>
      simp only [List.flatMap_cons]
      rw [List.getElem?_append_right (by rw [hg a (by simp)]; calc
        m ≤ (i' + 1) * m := Nat.le_mul_of_pos_left m (Nat.succ_pos i')
        _ ≤ (i' + 1) * m + j := Nat.le_add_right _ _)]
      rw [hg a (by simp)]
      have harith : (i' + 1) * m + j - m = i' * m + j := by
        rw [Nat.succ_mul]
        omega
      rw [harith, ih (fun x hx => hg x (by simp [hx])) i'
        (by simpa using Nat.lt_of_succ_lt_succ (Nat.succ_lt_succ hi))]
      rfl

/-- C7 counterexample: `RightJoiner` on the matched cell with left group
`[{k:1, x:1}, {k:1, x:2}]` and right group `[{k:1, y:1}, {k:1, y:2}]` —
the output enumerates the right rows outermost, so the pairs involving the
first left row (`x:1`) do not all precede the pairs involving the second
left row (`x:2`): the order is interleaved, contradicting the claimed
left-major enumeration. -/
theorem right_joiner_order_counterexample :
    rightJoinerCall ["k"]
      [[("k", Value.int 1), ("x", Value.int 1)],
       [("k", Value.int 1), ("x", Value.int 2)]]
      [[("k", Value.int 1), ("y", Value.int 1)],
       [("k", Value.int 1), ("y", Value.int 2)]] =
      [[("k", Value.int 1), ("y", Value.int 1), ("x", Value.int 1)],
       [("k", Value.int 1), ("y", Value.int 1), ("x", Value.int 2)],
       [("k", Value.int 1), ("y", Value.int 2), ("x", Value.int 1)],
       [("k", Value.int 1), ("y", Value.int 2), ("x", Value.int 2)]] ∧
    [[("k", Value.int 1), ("y", Value.int 1), ("x", Value.int 1)],
     [("k", Value.int 1), ("y", Value.int 1), ("x", Value.int 2)],
     [("k", Value.int 1), ("y", Value.int 2), ("x", Value.int 1)],
     [("k", Value.int 1), ("y", Value.int 2), ("x", Value.int 2)]] ≠
    [[("k", Value.int 1), ("y", Value.int 1), ("x", Value.int 1)],
     [("k", Value.int 1), ("y", Value.int 2), ("x", Value.int 1)],
     [("k", Value.int 1), ("y", Value.int 1), ("x", Value.int 2)],
     [("k", Value.int 1), ("y", Value.int 2), ("x", Value.int 2)]] := by
  exact ⟨by decide, by decide⟩

/-- C7 (amended): `InnerJoiner` enumerates a matched cell's Cartesian
product left-major — output slot `i·|B| + j` holds the merge of left row
`i` with right row `j` — but `RightJoiner` enumerates it right-major:
slot `i·|A| + j` holds the merge of right row `i` with left row `j`. -/
theorem joiner_product_enumeration (sa sb : String) (keys : List String)
    (A B : List Row) (f : Row → Row → Row) (out : List Row)
    (hf : ∀ ra ∈ A, ∀ rb ∈ B, innerMergeRow sa sb keys ra rb = .ok (f ra rb))
    (hok : innerJoinerCall sa sb keys A B = .ok out) :
    (out.length = A.length * B.length ∧
      ∀ i j (hi : i < A.length) (hj : j < B.length),
        out[i * B.length + j]? = some (f A[i] B[j])) ∧
    (A ≠ [] →
      (rightJoinerCall keys A B).length = B.length * A.length ∧
      ∀ i j (hi : i < B.length) (hj : j < A.length),
        (rightJoinerCall keys A B)[i * A.length + j]? =
          some (dictUpdate B[i] A[j])) := by
  have hout : out = A.flatMap (fun ra => B.map (f ra)) := by
    have h1 : innerJoinerCall sa sb keys A B =
        .ok (A.flatMap (fun ra => B.map (f ra))) := by
      rw [innerJoinerCall]
      exact eflatMapM_ok_of_forall (fun ra hra =>
        emapM_ok_of_forall (fun rb hrb => hf ra hra rb hrb))
    rw [h1] at hok
    exact (Except.ok.inj hok).symm
  subst hout
  have hglen : ∀ ra ∈ A, ((fun ra => B.map (f ra)) ra).length = B.length := by
    intro ra _
    simp
  constructor
  · constructor
    · rw [flatMap_uniform_length hglen]
    · intro i j hi hj
      rw [flatMap_uniform_getElem hglen i j hi hj]
      simp only [List.getElem?_map]
      rw [List.getElem?_eq_getElem hj]
      rfl
  · intro hA
    have hAne : A.isEmpty = false := by
      cases A with
      | nil => exact absurd rfl hA
      | cons x xs => rfl
    have hform : rightJoinerCall keys A B =
        B.flatMap (fun rb => A.map (fun ra => dictUpdate rb ra)) := by
      rw [rightJoinerCall]
      simp [hAne]
    rw [hform]
    have hglen2 : ∀ rb ∈ B,
        ((fun rb => A.map (fun ra => dictUpdate rb ra)) rb).length = A.length := by
      intro rb _
      simp
    constructor
    · rw [flatMap_uniform_length hglen2]
    · intro i j hi hj
      rw [flatMap_uniform_getElem hglen2 i j hi hj]
      simp only [List.getElem?_map]
      rw [List.getElem?_eq_getElem hj]
      rfl

/-- Witness for `joiner_product_enumeration` on a concrete 2×2 matched
cell: the inner join's slot 2 pairs the second left row with the first
right row (left-major), while the right join's slot 1 pairs the first
right row with the second left row (right-major). -/
theorem joiner_product_enumeration_witness :
    innerJoinerCall "_1" "_2" ["k"]
      [[("k", Value.int 1), ("x", Value.int 1)],
       [("k", Value.int 1), ("x", Value.int 2)]]
      [[("k", Value.int 1), ("y", Value.int 1)],
       [("k", Value.int 1), ("y", Value.int 2)]] =
      .ok [[("x", Value.int 1), ("y", Value.int 1), ("k", Value.int 1)],
           [("x", Value.int 1), ("y", Value.int 2), ("k", Value.int 1)],
           [("x", Value.int 2), ("y", Value.int 1), ("k", Value.int 1)],
           [("x", Value.int 2), ("y", Value.int 2), ("k", Value.int 1)]] ∧
    [[("x", Value.int 1), ("y", Value.int 1), ("k", Value.int 1)],
     [("x", Value.int 1), ("y", Value.int 2), ("k", Value.int 1)],
     [("x", Value.int 2), ("y", Value.int 1), ("k", Value.int 1)],
     [("x", Value.int 2), ("y", Value.int 2), ("k", Value.int 1)]][2]? =
      some [("x", Value.int 2), ("y", Value.int 1), ("k", Value.int 1)] ∧
    (rightJoinerCall ["k"]
      [[("k", Value.int 1), ("x", Value.int 1)],
       [("k", Value.int 1), ("x", Value.int 2)]]
      [[("k", Value.int 1), ("y", Value.int 1)],
       [("k", Value.int 1), ("y", Value.int 2)]])[1]? =
      some [("k", Value.int 1), ("y", Value.int 1), ("x", Value.int 2)] := by
  have h := joiner_product_enumeration "_1" "_2" ["k"]
    [[("k", Value.int 1), ("x", Value.int 1)],
     [("k", Value.int 1), ("x", Value.int 2)]]
    [[("k", Value.int 1), ("y", Value.int 1)],
     [("k", Value.int 1), ("y", Value.int 2)]]
    (fun ra rb => (innerMergeRow "_1" "_2" ["k"] ra rb).toOption.getD [])
    [[("x", Value.int 1), ("y", Value.int 1), ("k", Value.int 1)],
     [("x", Value.int 1), ("y", Value.int 2), ("k", Value.int 1)],
     [("x", Value.int 2), ("y", Value.int 1), ("k", Value.int 1)],
     [("x", Value.int 2), ("y", Value.int 2), ("k", Value.int 1)]]
    (by decide) (by decide)
  refine ⟨by decide, ?_, ?_⟩
  · have h2 := h.1.2 1 0 (by decide) (by decide)
    exact h2.trans (by decide)
  · have h3 := (h.2 (by decide)).2 0 1 (by decide) (by decide)
    exact h3.trans (by decide)

/-!  ## C6: `TopN` output length and descending order -/

/-- The numeric value of a row's column. -/
def rowNum (col : String) (r : Row) : Option ℚ := (getVal r col).bind valNum

/-- Row `r1` dominates `r2` in column `col`: both carry numbers there and
`r1`'s is at least `r2`'s. -/
def descendingBy (col : String) (r1 r2 : Row) : Prop :=
  ∃ q1 q2, rowNum col r1 = some q1 ∧ rowNum col r2 = some q2 ∧ q2 ≤ q1

theorem length_insSorted (le : α → α → Bool) (a : α) (l : List α) :
    (insSorted le a l).length = l.length + 1 := by
  induction l with
  | nil => rfl
  | cons b bs ih =>
    by_cases h : le a b <;> simp [insSorted, h, ih]

theorem length_sortLe (le : α → α → Bool) (l : List α) :
    (sortLe le l).length = l.length := by
  induction l with
  | nil => rfl
  | cons a as ih => simp [sortLe, length_insSorted, ih]

theorem mem_insSorted (le : α → α → Bool) (a x : α) (l : List α) :
    x ∈ insSorted le a l ↔ x = a ∨ x ∈ l := by
  induction l with
  | nil => simp [insSorted]
  | cons b bs ih =>
    by_cases h : le a b
    · simp [insSorted, h]
    · simp [insSorted, h, ih]
      tauto

theorem mem_sortLe (le : α → α → Bool) (x : α) (l : List α) :
    x ∈ sortLe le l ↔ x ∈ l := by
  induction l with
  | nil => simp [sortLe]
  | cons a as ih => simp [sortLe, mem_insSorted, ih]

theorem head?_insSorted (le : α → α → Bool) (a : α) (l : List α) :
    (insSorted le a l).head? = some a ∨ (insSorted le a l).head? = l.head? := by
  cases l with
  | nil => left; rfl
  | cons b bs => by_cases h : le a b <;> simp [insSorted, h]

theorem chain'_insSorted (le : α → α → Bool)
    (htot : ∀ x y, le x y = true ∨ le y x = true) (a : α) (l : List α)
    (h : List.Chain' (fun x y => le x y = true) l) :
    List.Chain' (fun x y => le x y = true) (insSorted le a l) := by
  induction l with
  | nil => simp [insSorted]
  | cons b bs ih =>
    by_cases hle : le a b
    · rw [insSorted, if_pos hle]
      exact List.chain'_cons'.mpr ⟨fun h2 hh => by
        simp at hh; rw [← hh]; exact hle, h⟩
    · rw [insSorted, if_neg hle]
      rw [List.chain'_cons'] at h
      refine List.chain'_cons'.mpr ⟨?_, ih h.2⟩
      intro h2 hh
      rcases head?_insSorted le a bs with hcase | hcase
      · rw [hcase] at hh
        simp at hh
        rw [← hh]
        rcases htot a b with h3 | h3
        · exact absurd h3 hle
        · exact h3
      · rw [hcase] at hh
        exact h.1 h2 hh

theorem chain'_sortLe (le : α → α → Bool)
    (htot : ∀ x y, le x y = true ∨ le y x = true) (l : List α) :
    List.Chain' (fun x y => le x y = true) (sortLe le l) := by
  induction l with
  | nil => simp [sortLe]
  | cons a as ih => exact chain'_insSorted le htot a _ ih

theorem entryLe_total (x y : ℚ × ℚ × Row) :
    entryLe x y = true ∨ entryLe y x = true := by
  rw [entryLe, entryLe]
  rcases lt_trichotomy x.1 y.1 with h | h | h
  · left; simp [h]
  · rcases le_total x.2.1 y.2.1 with h2 | h2
    · left; simp [h, h2]
    · right; simp [h.symm, h2]
  · right; simp [h]

theorem entryLe_fst_le {x y : ℚ × ℚ × Row} (h : entryLe x y = true) :
    x.1 ≤ y.1 := by
  rw [entryLe] at h
  simp only [Bool.or_eq_true, Bool.and_eq_true, decide_eq_true_eq] at h
  rcases h with h | ⟨h, _⟩
  · exact le_of_lt h
  · exact le_of_eq h

theorem chain'_map_row_of_inv (col : String) (l : List (ℚ × ℚ × Row))
    (hinv : ∀ e ∈ l, rowNum col e.2.2 = some (-e.1))
    (hch : List.Chain' (fun x y => entryLe x y = true) l) :
    List.Chain' (descendingBy col) (l.map (fun e => e.2.2)) := by
  induction l with
  | nil => simp
  | cons e l ih =>
    rw [List.map_cons]
    rw [List.chain'_cons'] at hch ⊢
    refine ⟨?_, ih (fun x hx => hinv x (by simp [hx])) hch.2⟩
    intro h2 hh
    cases l with
    | nil => simp at hh
    | cons e2 l2 =>
      simp only [List.map_cons, List.head?_cons, Option.mem_def,
        Option.some.injEq] at hh
      subst hh
      have hle : entryLe e e2 = true := hch.1 e2 (by simp)
      refine ⟨-e.1, -e2.1, hinv e (by simp), hinv e2 (by simp), ?_⟩
      exact neg_le_neg (entryLe_fst_le hle)

theorem getK_ok_iff {r : Row} {k : String} {v : Value} :
    getK r k = .ok v ↔ getVal r k = some v := by
  rw [getK]
  cases h : getVal r k with
  | none => simp
  | some w => simp

theorem pyNeg_ok {x : Value} {q : ℚ} (h : pyNeg x = .ok q) :
    valNum x = some (-q) := by
  rw [pyNeg] at h
  cases hv : valNum x with
  | none => rw [hv] at h; exact Except.noConfusion h
  | some q0 =>
    rw [hv] at h
    have := Except.ok.inj h
    rw [← this, neg_neg]

/-- C6: for every group, every numeric tiebreak assignment with distinct
values (as the source's random tiebreaks are, almost surely), and every
`TopN(col, n)` with `n ≥ 0` (`n : ℕ`), a successful call emits exactly
`min(n, group size) ≤ n` rows, sorted in non-increasing order of the
value in `col`. -/
theorem topn_length_and_descending (col : String) (n : Nat) (tb : Nat → ℚ)
    (group out : List Row) (hinj : Function.Injective tb)
    (h : topNCall col n tb group = .ok out) :
    out.length = min n group.length ∧ out.length ≤ n ∧
    List.Chain' (descendingBy col) out := by
  rw [topNCall, ebind_ok_iff] at h
  rcases h with ⟨entries, hent, hout⟩
  have hlen : entries.length = group.length := by
    rw [emapM_ok_length hent, List.enum_length]
  have hinv : ∀ e ∈ entries, rowNum col e.2.2 = some (-e.1) := by
    intro e he
    rcases emapM_ok_mem hent e he with ⟨p, _, hfp⟩
    rw [ebind_ok_iff] at hfp
    rcases hfp with ⟨v, hv, hfp⟩
    rw [ebind_ok_iff] at hfp
    rcases hfp with ⟨q, hq, hfp⟩
    have he2 : e = (q, tb p.1, p.2) := (Except.ok.inj hfp).symm
    subst he2
    rw [rowNum, getK_ok_iff.mp hv]
    simp only [Option.bind_some]
    exact pyNeg_ok hq
  have hout2 : out = ((sortLe entryLe entries).take
      (min n entries.length)).map (fun e => e.2.2) := (Except.ok.inj hout).symm
  subst hout2
  refine ⟨?_, ?_, ?_⟩
  · rw [List.length_map, List.length_take, length_sortLe, hlen]
    omega
  · rw [List.length_map, List.length_take, length_sortLe, hlen]
    omega
  · refine chain'_map_row_of_inv col _ ?_ ?_
    · intro e he
      exact hinv e ((mem_sortLe entryLe e entries).mp (List.mem_of_mem_take he))
    · exact List.Chain'.prefix (chain'_sortLe entryLe entryLe_total entries)
        ( List.take_prefix _ _)

/-- Witness for `topn_length_and_descending`: `TopN("v", 2)` on the group
`[{v:1}, {v:3}, {v:2}]` with tiebreak `i ↦ i` emits `[{v:3}, {v:2}]`. -/
theorem topn_length_and_descending_witness :
    Function.Injective (fun i : Nat => (i : ℚ)) ∧
    topNCall "v" 2 (fun i : Nat => (i : ℚ))
      [[("v", Value.int 1)], [("v", Value.int 3)], [("v", Value.int 2)]] =
      .ok [[("v", Value.int 3)], [("v", Value.int 2)]] ∧
    ([[("v", Value.int 3)], [("v", Value.int 2)]].length =
      min 2 [[("v", Value.int 1)], [("v", Value.int 3)],
        [("v", Value.int 2)]].length ∧
    [[("v", Value.int 3)], [("v", Value.int 2)]].length ≤ 2 ∧
    List.Chain' (descendingBy "v") [[("v", Value.int 3)], [("v", Value.int 2)]]) := by
  have hinj : Function.Injective (fun i : Nat => (i : ℚ)) := by
    intro a b hab
    exact Nat.cast_injective hab
  have hcall : topNCall "v" 2 (fun i : Nat => (i : ℚ))
      [[("v", Value.int 1)], [("v", Value.int 3)], [("v", Value.int 2)]] =
      .ok [[("v", Value.int 3)], [("v", Value.int 2)]] := by decide
  exact ⟨hinj, hcall, topn_length_and_descending "v" 2 _ _ _ hinj hcall⟩

/-!  ## C4: `Reduce` over maximal key-equal runs -/

theorem pyEqV_symm (a b : Value) : pyEqV a b = pyEqV b a := by
  cases a <;> cases b <;> simp [pyEqV, cmpKey, eq_comm] <;> tauto

/-- The key-column values of a row in key-list order (total: the theorems
supply presence of every key column). -/
def keyListD (keys : List String) (r : Row) : List Value :=
  keys.map (fun k => (getVal r k).getD (.int 0))

theorem rowKeyE_of_present {keys : List String} {r : Row}
    (h : ∀ k ∈ keys, (getVal r k).isSome) :
    rowKeyE keys r = .ok (keyListD keys r) := by
  rw [rowKeyE, keyListD]
  refine emapM_ok_of_forall ?_
  intro k hk
  rcases Option.isSome_iff_exists.mp (h k hk) with ⟨v, hv⟩
  rw [getK, hv]
  rfl

theorem pyEqK_keyListD {keys : List String} {r1 r2 : Row}
    (h1 : ∀ k ∈ keys, (getVal r1 k).isSome)
    (h2 : ∀ k ∈ keys, (getVal r2 k).isSome) :
    pyEqK (keyListD keys r2) (keyListD keys r1) = keyAgree keys r1 r2 := by
  induction keys with
  | nil => rfl
  | cons k ks ih =>
    rcases Option.isSome_iff_exists.mp (h1 k (by simp)) with ⟨v1, hv1⟩
    rcases Option.isSome_iff_exists.mp (h2 k (by simp)) with ⟨v2, hv2⟩
    simp only [keyListD, List.map_cons, pyEqK, keyAgree, List.all_cons,
      hv1, hv2, Option.getD_some]
    rw [pyEqV_symm]
    rw [show pyEqK (List.map (fun k => (getVal r2 k).getD (.int 0)) ks)
        (List.map (fun k => (getVal r1 k).getD (.int 0)) ks) =
      keyAgree ks r1 r2 from
        ih (fun k hk => h1 k (by simp [hk])) (fun k hk => h2 k (by simp [hk]))]
    rw [keyAgree]

/-- Accumulator form of run grouping: `b` is the group under construction
and `r0` its most recent row. -/
def glueRuns (keys : List String) (b : List Row) (r0 : Row) :
    List Row → List (List Row)
  | [] => [b]
  | r :: rs =>
    if keyAgree keys r0 r then glueRuns keys (b ++ [r]) r rs
    else b :: glueRuns keys [r] r rs

theorem runsSpec_cons_nil (keys : List String) (r : Row) (rs : List Row)
    (h : runsSpec keys rs = []) : runsSpec keys (r :: rs) = [[r]] := by
  rw [runsSpec, h]

theorem runsSpec_cons_eq (keys : List String) (r r2 : Row) (rs g : List Row)
    (gs : List (List Row)) (h : runsSpec keys rs = (r2 :: g) :: gs) :
    runsSpec keys (r :: rs) =
      if keyAgree keys r r2 then (r :: r2 :: g) :: gs
      else [r] :: (r2 :: g) :: gs := by
  rw [runsSpec, h]

theorem runsSpec_cons_head (keys : List String) (r : Row) (rs : List Row) :
    ∃ t gs, runsSpec keys (r :: rs) = (r :: t) :: gs := by
  cases h : runsSpec keys rs with
  | nil => exact ⟨[], [], runsSpec_cons_nil keys r rs h⟩
  | cons g gs =>
    cases g with
    | nil => exact ⟨[], [] :: gs, by rw [runsSpec, h]⟩
    | cons r2 g2 =>
      by_cases ha : keyAgree keys r r2
      · exact ⟨r2 :: g2, gs, by rw [runsSpec_cons_eq keys r r2 rs g2 gs h, if_pos ha]⟩
      · exact ⟨[], (r2 :: g2) :: gs, by
          rw [runsSpec_cons_eq keys r r2 rs g2 gs h, if_neg ha]⟩

theorem glueRuns_runsSpec (keys : List String) :
    ∀ (rows : List Row) (r0 : Row) (b' t : List Row) (gs : List (List Row)),
      runsSpec keys (r0 :: rows) = (r0 :: t) :: gs →
      glueRuns keys (b' ++ [r0]) r0 rows = (b' ++ r0 :: t) :: gs := by
  intro rows
  induction rows with
  | nil =>
    intro r0 b' t gs h
    rw [runsSpec_cons_nil keys r0 [] rfl] at h
    have ht : [r0] = r0 :: t := (List.cons.inj h).1
    have ht2 : t = [] := ((List.cons.inj ht).2).symm
    have hgs : gs = [] := ((List.cons.inj h).2).symm
    subst ht2
    subst hgs
    rfl
  | cons r rs ih =>
    intro r0 b' t gs h
    rcases runsSpec_cons_head keys r rs with ⟨t2, gs2, h2⟩
    rw [runsSpec_cons_eq keys r0 r (r :: rs) t2 gs2 h2] at h
    by_cases ha : keyAgree keys r0 r
    · rw [if_pos ha] at h
      have ht : t = r :: t2 := by
        have := (List.cons.inj h).1
        exact ((List.cons.inj this).2).symm
      have hgs : gs = gs2 := ((List.cons.inj h).2).symm
      rw [ht, hgs, glueRuns, if_pos ha]
      have := ih r (b' ++ [r0]) t2 gs2 h2
      rw [List.append_assoc] at this
      simpa using this
    · rw [if_neg ha] at h
      have ht : t = [] := by
        have := (List.cons.inj h).1
        exact ((List.cons.inj this).2).symm
      have hgs : gs = (r :: t2) :: gs2 := ((List.cons.inj h).2).symm
      rw [ht, hgs, glueRuns, if_neg ha]
      have := ih r [] t2 gs2 h2
      simp only [List.nil_append] at this
      rw [this]

theorem reduceLoop_glue (R : RedFn) (keys : List String) :
    ∀ (rows b : List Row) (r0 : Row), b ≠ [] →
      (∀ k ∈ keys, (getVal r0 k).isSome) →
      (∀ r ∈ rows, ∀ k ∈ keys, (getVal r k).isSome) →
      reduceLoop R keys (some (keyListD keys r0)) b rows =
        .ok ((glueRuns keys b r0 rows).flatMap (R keys)) := by
  intro rows
  induction rows with
  | nil =>
    intro b r0 hb _ _
    rw [reduceLoop, glueRuns]
    have : b.isEmpty = false := by
      cases b with
      | nil => exact absurd rfl hb
      | cons x xs => rfl
    rw [this]
    simp
  | cons r rs ih =>
    intro b r0 hb h0 hpres
    have hr : ∀ k ∈ keys, (getVal r k).isSome := hpres r (by simp)
    have hstep : reduceLoop R keys (some (keyListD keys r0)) b (r :: rs) =
        (do
          let ck ← rowKeyE keys r
          if pyEqK ck (keyListD keys r0) then
            reduceLoop R keys (some ck) (b ++ [r]) rs
          else do
            let tail ← reduceLoop R keys (some ck) [r] rs
            Except.ok (R keys b ++ tail)) := rfl
    rw [hstep, rowKeyE_of_present hr, ebind_ok, pyEqK_keyListD h0 hr]
    by_cases ha : keyAgree keys r0 r
    · rw [if_pos ha, glueRuns, if_pos ha]
      exact ih (b ++ [r]) r (by simp) hr
        (fun x hx => hpres x (by simp [hx]))
    · rw [if_neg ha, glueRuns, if_neg ha]
      rw [ih [r] r (by simp) hr (fun x hx => hpres x (by simp [hx])),
        ebind_ok]
      simp

/-- C4: for every finite input stream whose rows carry all key columns and
every reducer `R`, `Reduce(R, K)` succeeds and its output is exactly the
concatenation, in input order, of `R` applied once to each maximal run of
consecutive rows agreeing on all columns of `K` (including the final run).
No sortedness hypothesis is needed: on a `K`-sorted stream the maximal
runs are precisely the logical groups, so the claim's statement follows as
the special case. -/
theorem reduce_once_per_maximal_run (R : RedFn) (keys : List String)
    (rows : List Row)
    (hpres : ∀ r ∈ rows, ∀ k ∈ keys, (getVal r k).isSome) :
    reduceCall R keys rows = .ok ((runsSpec keys rows).flatMap (R keys)) := by
  cases rows with
  | nil => rfl
  | cons r rs =>
    have hr : ∀ k ∈ keys, (getVal r k).isSome := hpres r (by simp)
    have h1 : reduceCall R keys (r :: rs) =
        reduceLoop R keys (some (keyListD keys r)) [r] rs := by
      have hstep : reduceCall R keys (r :: rs) =
          (do
            let ck ← rowKeyE keys r
            reduceLoop R keys (some ck) [r] rs) := rfl
      rw [hstep, rowKeyE_of_present hr, ebind_ok]
    rw [h1, reduceLoop_glue R keys rs [r] r (by simp) hr
      (fun x hx => hpres x (by simp [hx]))]
    rcases runsSpec_cons_head keys r rs with ⟨t, gs, hh⟩
    have hg := glueRuns_runsSpec keys rs r [] t gs hh
    simp only [List.nil_append] at hg
    rw [hg, hh]

/-- Witness for `reduce_once_per_maximal_run`: three rows with keys
`1, 1, 2` form two runs; the identity-ish reducer emits each group, so the
output is the input and the reducer ran once per run. -/
theorem reduce_once_per_maximal_run_witness :
    (∀ r ∈ [[("k", Value.int 1), ("a", Value.int 1)],
            [("k", Value.int 1), ("a", Value.int 2)],
            [("k", Value.int 2), ("a", Value.int 3)]],
      ∀ k ∈ ["k"], (getVal r k).isSome) ∧
    reduceCall (fun _ g => g) ["k"]
      [[("k", Value.int 1), ("a", Value.int 1)],
       [("k", Value.int 1), ("a", Value.int 2)],
       [("k", Value.int 2), ("a", Value.int 3)]] =
      .ok [[("k", Value.int 1), ("a", Value.int 1)],
           [("k", Value.int 1), ("a", Value.int 2)],
           [("k", Value.int 2), ("a", Value.int 3)]] := by
  refine ⟨by decide, ?_⟩
  exact (reduce_once_per_maximal_run (fun _ g => g) ["k"] _ (by decide)).trans
    (by decide)

/-!  ## C1: column collision policy of the joiners -/

theorem mem_rowNames_getVal {r : Row} {k : String} (h : k ∈ rowNames r) :
    ∃ v, getVal r k = some v := by
  induction r with
  | nil => simp [rowNames] at h
  | cons kv rest ih =>
    by_cases hk : kv.1 = k
    · exact ⟨kv.2, by rw [getVal, if_pos hk]⟩
    · have h2 : k ∈ rowNames rest := by
        simp only [rowNames, List.map_cons, List.mem_cons] at h
        rcases h with h | h
        · exact absurd h.symm hk
        · exact h
      rcases ih h2 with ⟨v, hv⟩
      exact ⟨v, by rw [getVal, if_neg hk, hv]⟩

theorem fst_mem_rowNames {r : Row} {kv : String × Value} (h : kv ∈ r) :
    kv.1 ∈ rowNames r := List.mem_map_of_mem Prod.fst h

theorem mem_interNames {ra rb : Row} {k : String} :
    k ∈ interNames ra rb ↔ k ∈ rowNames ra ∧ k ∈ rowNames rb := by
  rw [interNames]
  simp [List.mem_filter, List.elem_iff]

theorem mem_sharedNonKeys {keys : List String} {ra rb : Row} {j : String} :
    j ∈ sharedNonKeys keys ra rb ↔
      (j ∈ rowNames ra ∧ j ∈ rowNames rb) ∧ j ∉ keys := by
  rw [sharedNonKeys]
  simp [List.mem_filter, mem_interNames, List.elem_iff]

theorem assoc_filter_fst {r : Row} {k : String} {v : Value}
    (hnd : (rowNames r).Nodup) (hv : getVal r k = some v) :
    r.filter (fun kv => kv.1 = k) = [(k, v)] := by
  induction r with
  | nil => simp [getVal] at hv
  | cons kv rest ih =>
    by_cases hk : kv.1 = k
    · rw [getVal, if_pos hk] at hv
      have hv2 : kv = (k, v) := by
        rcases kv with ⟨k0, v0⟩
        simp only at hk
        simp only [Option.some.injEq] at hv
        rw [hk, hv]
      have hrest : rest.filter (fun kv => decide (kv.1 = k)) = [] := by
        rw [List.filter_eq_nil_iff]
        intro x hx
        simp only [decide_eq_true_eq]
        intro he
        have : kv.1 ∈ rowNames rest := by
          rw [hk, ← he]
          exact fst_mem_rowNames hx
        exact (List.nodup_cons.mp (by simpa [rowNames] using hnd)).1 this
      rw [List.filter_cons, if_pos (by simpa using hk), hrest, hv2]
    · rw [getVal, if_neg hk] at hv
      rw [List.filter_cons, if_neg (by simpa using hk)]
      exact ih (List.nodup_cons.mp (by simpa [rowNames] using hnd)).2 hv

theorem allEq_getLast? {l : List α} {a : α} (hne : l ≠ [])
    (hall : ∀ x ∈ l, x = a) : l.getLast? = some a := by
  induction l with
  | nil => exact absurd rfl hne
  | cons b bs ih =>
    cases bs with
    | nil => rw [hall b (by simp)]; rfl
    | cons c cs =>
      rw [List.getLast?_cons_cons]
      exact ih (by simp) (fun x hx => hall x (by simp [List.mem_cons.mp hx]))

theorem filterEq_getLast? {l : List String} {k : String} (h : k ∈ l) :
    (l.filter (fun x => x = k)).getLast? = some k := by
  refine allEq_getLast? ?_ ?_
  · exact List.ne_nil_of_mem (List.mem_filter.mpr ⟨h, by simp⟩)
  · intro x hx
    simpa using (List.mem_filter.mp hx).2

theorem flatMap_filter_singleton {l : List String}
    {f : String → List (String × Value)} {c : String} {x : String × Value}
    {j : String} (hj : j ∈ l) (hnd : l.Nodup)
    (hfj : (f j).filter (fun kv => kv.1 = c) = [x])
    (hother : ∀ j' ∈ l, j' ≠ j → (f j').filter (fun kv => kv.1 = c) = []) :
    (l.flatMap f).filter (fun kv => kv.1 = c) = [x] := by
  induction l with
  | nil => simp at hj
  | cons a as ih =>
    rw [List.flatMap_cons, List.filter_append]
    by_cases ha : a = j
    · subst ha
      rw [hfj]
      have : (as.flatMap f).filter (fun kv => decide (kv.1 = c)) = [] := by
        rw [List.filter_eq_nil_iff]
        intro kv hkv
        rcases List.mem_flatMap.mp hkv with ⟨j', hj', hkv2⟩
        have hne : j' ≠ a := fun he =>
          (List.nodup_cons.mp hnd).1 (he ▸ hj')
        have := hother j' (by simp [hj']) hne
        rw [List.filter_eq_nil_iff] at this
        exact this kv hkv2
      rw [this, List.append_nil]
    · rw [hother a (by simp) ha, List.nil_append]
      have hj2 : j ∈ as := by
        rcases List.mem_cons.mp hj with h | h
        · exact absurd h.symm ha
        · exact h
      exact ih hj2 (List.nodup_cons.mp hnd).2
        (fun j' hj' hne => hother j' (by simp [hj']) hne)

/-- The dict-write sequence that `InnerJoiner` performs for one matched
pair, in loop order: unique-left bindings, unique-right bindings, key
columns from the left row, then the two suffixed columns per shared
non-key column. -/
def innerWrites (sa sb : String) (keys : List String) (ra rb : Row) :
    List (String × Value) :=
  ra.filter (fun kv => !(interNames ra rb).contains kv.1) ++
  rb.filter (fun kv => !(interNames ra rb).contains kv.1) ++
  keys.map (fun k => (k, (getVal ra k).getD (.int 0))) ++
  (sharedNonKeys keys ra rb).flatMap (fun k =>
    [(k ++ sa, (getVal ra k).getD (.int 0)),
     (k ++ sb, (getVal rb k).getD (.int 0))])

theorem innerMergeRow_eq (sa sb : String) (keys : List String) (ra rb : Row)
    (hk : ∀ k ∈ keys, ∃ v, getVal ra k = some v) :
    innerMergeRow sa sb keys ra rb =
      .ok (applyWrites [] (innerWrites sa sb keys ra rb)) := by
  have hw3 : emapM (fun k => do
      let v ← getK ra k
      Except.ok (k, v)) keys =
      .ok (keys.map (fun k => (k, (getVal ra k).getD (.int 0)))) := by
    refine emapM_ok_of_forall ?_
    intro k hk2
    rcases hk k hk2 with ⟨v, hv⟩
    rw [show getK ra k = .ok v by rw [getK, hv], ebind_ok]
    simp [hv]
  rw [innerMergeRow, innerWrites, hw3, ebind_ok]

theorem getVal_applyWrites_of_getLast {W : List (String × Value)} {c : String}
    {x : String × Value}
    (h : (W.filter (fun kv => kv.1 = c)).getLast? = some x) :
    getVal (applyWrites [] W) c = some x.2 := by
  rw [getVal_applyWrites, h]

theorem filter_innerWrites (sa sb : String) (keys : List String) (ra rb : Row)
    (c : String) :
    (innerWrites sa sb keys ra rb).filter (fun kv => kv.1 = c) =
      ((ra.filter (fun kv => !(interNames ra rb).contains kv.1)).filter
          (fun kv => kv.1 = c) ++
        (rb.filter (fun kv => !(interNames ra rb).contains kv.1)).filter
          (fun kv => kv.1 = c)) ++
      (keys.map (fun k => (k, (getVal ra k).getD (.int 0)))).filter
        (fun kv => kv.1 = c) ++
      ((sharedNonKeys keys ra rb).flatMap (fun k =>
        [(k ++ sa, (getVal ra k).getD (.int 0)),
         (k ++ sb, (getVal rb k).getD (.int 0))])).filter
        (fun kv => kv.1 = c) := by
  rw [innerWrites, List.filter_append, List.filter_append, List.filter_append]

/-- C1 (amended): the column collision policy holds for `InnerJoiner` (the
other joiners merge by dict-update and ignore the suffixes): on a matched
pair whose rows have duplicate-free columns, contain every key column, and
whose suffixed names collide with nothing, the output carries each key
column once with the left row's value, each non-key column unique to one
side as-is, and each shared non-key column twice under the two suffixed
names with the left and right values. -/
theorem inner_joiner_column_policy (sa sb : String) (keys : List String)
    (ra rb out : Row)
    (hnda : (rowNames ra).Nodup) (hndb : (rowNames rb).Nodup)
    (hk : ∀ k ∈ keys, k ∈ rowNames ra ∧ k ∈ rowNames rb)
    (hfresh : ∀ j ∈ sharedNonKeys keys ra rb,
      ((j ++ sa) ∉ rowNames ra ∧ (j ++ sa) ∉ rowNames rb ∧ (j ++ sa) ∉ keys) ∧
      ((j ++ sb) ∉ rowNames ra ∧ (j ++ sb) ∉ rowNames rb ∧ (j ++ sb) ∉ keys))
    (hinj : ∀ j ∈ sharedNonKeys keys ra rb, ∀ j' ∈ sharedNonKeys keys ra rb,
      (j ++ sa = j' ++ sa → j = j') ∧ (j ++ sb = j' ++ sb → j = j') ∧
      j ++ sa ≠ j' ++ sb)
    (hmerge : innerMergeRow sa sb keys ra rb = .ok out) :
    (∀ k ∈ keys, getVal out k = getVal ra k) ∧
    (∀ k, k ∈ rowNames ra → k ∉ rowNames rb → getVal out k = getVal ra k) ∧
    (∀ k, k ∈ rowNames rb → k ∉ rowNames ra → getVal out k = getVal rb k) ∧
    (∀ j ∈ sharedNonKeys keys ra rb,
      getVal out (j ++ sa) = getVal ra j ∧ getVal out (j ++ sb) = getVal rb j) := by
  have hpres : ∀ k ∈ keys, ∃ v, getVal ra k = some v :=
    fun k hkk => mem_rowNames_getVal (hk k hkk).1
  have hout : out = applyWrites [] (innerWrites sa sb keys ra rb) := by
    rw [innerMergeRow_eq sa sb keys ra rb hpres] at hmerge
    exact (Except.ok.inj hmerge).symm
  subst hout
  have hnil1 : ∀ c, c ∉ rowNames ra →
      (ra.filter (fun kv => !(interNames ra rb).contains kv.1)).filter
        (fun kv => kv.1 = c) = [] := by
    intro c hc
    rw [List.filter_eq_nil_iff]
    intro kv hkv
    simp only [decide_eq_true_eq]
    intro he
    exact hc (he ▸ fst_mem_rowNames (List.mem_filter.mp hkv).1)
  have hnil2 : ∀ c, c ∉ rowNames rb →
      (rb.filter (fun kv => !(interNames ra rb).contains kv.1)).filter
        (fun kv => kv.1 = c) = [] := by
    intro c hc
    rw [List.filter_eq_nil_iff]
    intro kv hkv
    simp only [decide_eq_true_eq]
    intro he
    exact hc (he ▸ fst_mem_rowNames (List.mem_filter.mp hkv).1)
  have hnil3 : ∀ c, c ∉ keys →
      ((keys.map (fun k => (k, (getVal ra k).getD (.int 0)))).filter
        (fun kv => kv.1 = c)) = [] := by
    intro c hc
    rw [List.filter_eq_nil_iff]
    intro kv hkv
    simp only [decide_eq_true_eq]
    intro he
    rcases List.mem_map.mp hkv with ⟨k0, hk0, hkv2⟩
    rw [← hkv2] at he
    exact hc (he ▸ hk0)
  have hnil4 : ∀ c, (∀ j ∈ sharedNonKeys keys ra rb, c ≠ j ++ sa ∧ c ≠ j ++ sb) →
      (((sharedNonKeys keys ra rb).flatMap (fun k =>
        [(k ++ sa, (getVal ra k).getD (.int 0)),
         (k ++ sb, (getVal rb k).getD (.int 0))])).filter
        (fun kv => kv.1 = c)) = [] := by
    intro c hc
    rw [List.filter_eq_nil_iff]
    intro kv hkv
    simp only [decide_eq_true_eq]
    intro he
    rcases List.mem_flatMap.mp hkv with ⟨j, hj, hkv2⟩
    rcases hc j hj with ⟨hca, hcb⟩
    rcases List.mem_cons.mp hkv2 with h2 | h2
    · rw [h2] at he
      exact hca he.symm
    · rw [List.mem_singleton.mp h2] at he
      exact hcb he.symm
  refine ⟨?_, ?_, ?_, ?_⟩
  · intro k hkk
    obtain ⟨hka, hkb⟩ := hk k hkk
    obtain ⟨v, hv⟩ := mem_rowNames_getVal hka
    have hinter : k ∈ interNames ra rb := mem_interNames.mpr ⟨hka, hkb⟩
    have hn1 : (ra.filter (fun kv => !(interNames ra rb).contains kv.1)).filter
        (fun kv => kv.1 = k) = [] := by
      rw [List.filter_eq_nil_iff]
      intro kv hkv
      simp only [decide_eq_true_eq]
      intro he
      have hnc := (List.mem_filter.mp hkv).2
      rw [he] at hnc
      simp [List.elem_iff, hinter] at hnc
    have hn2 : (rb.filter (fun kv => !(interNames ra rb).contains kv.1)).filter
        (fun kv => kv.1 = k) = [] := by
      rw [List.filter_eq_nil_iff]
      intro kv hkv
      simp only [decide_eq_true_eq]
      intro he
      have hnc := (List.mem_filter.mp hkv).2
      rw [he] at hnc
      simp [List.elem_iff, hinter] at hnc
    have hn4 : (((sharedNonKeys keys ra rb).flatMap (fun k =>
        [(k ++ sa, (getVal ra k).getD (.int 0)),
         (k ++ sb, (getVal rb k).getD (.int 0))])).filter
        (fun kv => kv.1 = k)) = [] := by
      refine hnil4 k ?_
      intro j hj
      rcases hfresh j hj with ⟨⟨_, _, hfa⟩, ⟨_, _, hfb⟩⟩
      exact ⟨fun he => hfa (he ▸ hkk), fun he => hfb (he ▸ hkk)⟩
    have hmap : ((keys.map (fun k' => (k', (getVal ra k').getD (.int 0)))).filter
        (fun kv => kv.1 = k)) =
        (keys.filter (fun x => x = k)).map
          (fun k' => (k', (getVal ra k').getD (.int 0))) := by
      rw [List.filter_map]
      rfl
    have hlast : (((innerWrites sa sb keys ra rb).filter
        (fun kv => kv.1 = k)).getLast?) =
        some (k, (getVal ra k).getD (.int 0)) := by
      rw [filter_innerWrites, hn1, hn2, hn4, hmap]
      simp only [List.nil_append, List.append_nil]
      rw [List.getLast?_map, filterEq_getLast? hkk]
      rfl
    rw [getVal_applyWrites_of_getLast hlast, hv]
    rfl
  · intro k hka hkb
    obtain ⟨v, hv⟩ := mem_rowNames_getVal hka
    have hninter : k ∉ interNames ra rb := fun hin =>
      hkb (mem_interNames.mp hin).2
    have h1 : (ra.filter (fun kv => !(interNames ra rb).contains kv.1)).filter
        (fun kv => kv.1 = k) = [(k, v)] := by
      rw [List.filter_filter]
      have hcong : ∀ kv ∈ ra,
          (decide (kv.1 = k) && !(interNames ra rb).contains kv.1) =
            decide (kv.1 = k) := by
        intro kv _
        by_cases he : kv.1 = k
        · simp [he, List.elem_iff, hninter]
        · simp [he]
      rw [List.filter_congr hcong]
      exact assoc_filter_fst hnda hv
    have hkeys : k ∉ keys := fun hkk => hkb (hk k hkk).2
    have hn4 : (((sharedNonKeys keys ra rb).flatMap (fun k =>
        [(k ++ sa, (getVal ra k).getD (.int 0)),
         (k ++ sb, (getVal rb k).getD (.int 0))])).filter
        (fun kv => kv.1 = k)) = [] := by
      refine hnil4 k ?_
      intro j hj
      rcases hfresh j hj with ⟨⟨hfa, _, _⟩, ⟨hfb, _, _⟩⟩
      exact ⟨fun he => hfa (he ▸ hka), fun he => hfb (he ▸ hka)⟩
    have hlast : (((innerWrites sa sb keys ra rb).filter
        (fun kv => kv.1 = k)).getLast?) = some (k, v) := by
      rw [filter_innerWrites, h1, hnil2 k hkb, hnil3 k hkeys, hn4]
      rfl
    rw [getVal_applyWrites_of_getLast hlast, hv]
  · intro k hkb hka
    obtain ⟨v, hv⟩ := mem_rowNames_getVal hkb
    have hninter : k ∉ interNames ra rb := fun hin =>
      hka (mem_interNames.mp hin).1
    have h2 : (rb.filter (fun kv => !(interNames ra rb).contains kv.1)).filter
        (fun kv => kv.1 = k) = [(k, v)] := by
      rw [List.filter_filter]
      have hcong : ∀ kv ∈ rb,
          (decide (kv.1 = k) && !(interNames ra rb).contains kv.1) =
            decide (kv.1 = k) := by
        intro kv _
        by_cases he : kv.1 = k
        · simp [he, List.elem_iff, hninter]
        · simp [he]
      rw [List.filter_congr hcong]
      exact assoc_filter_fst hndb hv
    have hkeys : k ∉ keys := fun hkk => hka (hk k hkk).1
    have hn4 : (((sharedNonKeys keys ra rb).flatMap (fun k =>
        [(k ++ sa, (getVal ra k).getD (.int 0)),
         (k ++ sb, (getVal rb k).getD (.int 0))])).filter
        (fun kv => kv.1 = k)) = [] := by
      refine hnil4 k ?_
      intro j hj
      rcases hfresh j hj with ⟨⟨_, hfa, _⟩, ⟨_, hfb, _⟩⟩
      exact ⟨fun he => hfa (he ▸ hkb), fun he => hfb (he ▸ hkb)⟩
    have hlast : (((innerWrites sa sb keys ra rb).filter
        (fun kv => kv.1 = k)).getLast?) = some (k, v) := by
      rw [filter_innerWrites, h2, hnil1 k hka, hnil3 k hkeys, hn4]
      rfl
    rw [getVal_applyWrites_of_getLast hlast, hv]
  · intro j hj
    have hjmem := mem_sharedNonKeys.mp hj
    obtain ⟨va, hva⟩ := mem_rowNames_getVal hjmem.1.1
    obtain ⟨vb, hvb⟩ := mem_rowNames_getVal hjmem.1.2
    have hndS : (sharedNonKeys keys ra rb).Nodup := by
      rw [sharedNonKeys, interNames]
      exact (hnda.filter _).filter _
    rcases hfresh j hj with ⟨⟨hfa1, hfa2, hfa3⟩, ⟨hfb1, hfb2, hfb3⟩⟩
    constructor
    · have hflat : (((sharedNonKeys keys ra rb).flatMap (fun k =>
          [(k ++ sa, (getVal ra k).getD (.int 0)),
           (k ++ sb, (getVal rb k).getD (.int 0))])).filter
          (fun kv => kv.1 = j ++ sa)) = [(j ++ sa, (getVal ra j).getD (.int 0))] := by
        refine flatMap_filter_singleton hj hndS ?_ ?_
        · rw [List.filter_cons, List.filter_cons]
          rw [if_pos (by simp), if_neg (by
            simp only [decide_eq_true_eq]
            exact fun he => (hinj j hj j hj).2.2 he.symm)]
          rfl
        · intro j' hj' hne
          rw [List.filter_eq_nil_iff]
          intro kv hkv
          simp only [decide_eq_true_eq]
          intro he
          rcases List.mem_cons.mp hkv with h2 | h2
          · rw [h2] at he
            exact hne ((hinj j' hj' j hj).1 he)
          · rw [List.mem_singleton.mp h2] at he
            exact (hinj j hj j' hj').2.2 he.symm
      have hlast : (((innerWrites sa sb keys ra rb).filter
          (fun kv => kv.1 = j ++ sa)).getLast?) =
          some (j ++ sa, (getVal ra j).getD (.int 0)) := by
        rw [filter_innerWrites, hnil1 _ hfa1, hnil2 _ hfa2, hnil3 _ hfa3, hflat]
        rfl
      rw [getVal_applyWrites_of_getLast hlast, hva]
      rfl
    · have hflat : (((sharedNonKeys keys ra rb).flatMap (fun k =>
          [(k ++ sa, (getVal ra k).getD (.int 0)),
           (k ++ sb, (getVal rb k).getD (.int 0))])).filter
          (fun kv => kv.1 = j ++ sb)) = [(j ++ sb, (getVal rb j).getD (.int 0))] := by
        refine flatMap_filter_singleton hj hndS ?_ ?_
        · rw [List.filter_cons, List.filter_cons]
          rw [if_neg (by
            simp only [decide_eq_true_eq]
            exact (hinj j hj j hj).2.2), if_pos (by simp)]
          rfl
        · intro j' hj' hne
          rw [List.filter_eq_nil_iff]
          intro kv hkv
          simp only [decide_eq_true_eq]
          intro he
          rcases List.mem_cons.mp hkv with h2 | h2
          · rw [h2] at he
            exact (hinj j' hj' j hj).2.2 he
          · rw [List.mem_singleton.mp h2] at he
            exact hne ((hinj j' hj' j hj).2.1 he)
      have hlast : (((innerWrites sa sb keys ra rb).filter
          (fun kv => kv.1 = j ++ sb)).getLast?) =
          some (j ++ sb, (getVal rb j).getD (.int 0)) := by
        rw [filter_innerWrites, hnil1 _ hfb1, hnil2 _ hfb2, hnil3 _ hfb3, hflat]
        rfl
      rw [getVal_applyWrites_of_getLast hlast, hvb]
      rfl

/-- C1 counterexample: `LeftJoiner` (suffixes left at the default
`_1`/`_2`) on the matched pair `{k:1, v:"a", x:10}` / `{k:1, v:"b", y:20}`
with keys `[k]` — the output row is the plain dict-update
`{k:1, v:"b", x:10, y:20}`: the shared non-key column `v` is *not* split
into `v_1`/`v_2` (both are absent) and the left row's `v` value is lost,
contradicting the claim that every built-in joiner applies the suffix
policy. -/
theorem left_joiner_no_suffixes_counterexample :
    leftJoinerCall ["k"]
      [[("k", Value.int 1), ("v", Value.str "a"), ("x", Value.int 10)]]
      [[("k", Value.int 1), ("v", Value.str "b"), ("y", Value.int 20)]] =
      [[("k", Value.int 1), ("v", Value.str "b"), ("x", Value.int 10),
        ("y", Value.int 20)]] ∧
    getVal [("k", Value.int 1), ("v", Value.str "b"), ("x", Value.int 10),
      ("y", Value.int 20)] "v_1" = none ∧
    getVal [("k", Value.int 1), ("v", Value.str "b"), ("x", Value.int 10),
      ("y", Value.int 20)] "v_2" = none := by
  exact ⟨by decide, by decide, by decide⟩

/-- Witness for `inner_joiner_column_policy` on the matched pair
`{k:1, v:"a", x:10}` / `{k:1, v:"b", y:20}` with keys `[k]` and the default
suffixes. -/
theorem inner_joiner_column_policy_witness :
    innerMergeRow "_1" "_2" ["k"]
      [("k", Value.int 1), ("v", Value.str "a"), ("x", Value.int 10)]
      [("k", Value.int 1), ("v", Value.str "b"), ("y", Value.int 20)] =
      .ok [("x", Value.int 10), ("y", Value.int 20), ("k", Value.int 1),
        ("v_1", Value.str "a"), ("v_2", Value.str "b")] ∧
    getVal [("x", Value.int 10), ("y", Value.int 20), ("k", Value.int 1),
      ("v_1", Value.str "a"), ("v_2", Value.str "b")] "k" =
      getVal [("k", Value.int 1), ("v", Value.str "a"), ("x", Value.int 10)] "k" ∧
    getVal [("x", Value.int 10), ("y", Value.int 20), ("k", Value.int 1),
      ("v_1", Value.str "a"), ("v_2", Value.str "b")] "x" = some (Value.int 10) ∧
    getVal [("x", Value.int 10), ("y", Value.int 20), ("k", Value.int 1),
      ("v_1", Value.str "a"), ("v_2", Value.str "b")] "y" = some (Value.int 20) ∧
    getVal [("x", Value.int 10), ("y", Value.int 20), ("k", Value.int 1),
      ("v_1", Value.str "a"), ("v_2", Value.str "b")] "v_1" =
      some (Value.str "a") ∧
    getVal [("x", Value.int 10), ("y", Value.int 20), ("k", Value.int 1),
      ("v_1", Value.str "a"), ("v_2", Value.str "b")] "v_2" =
      some (Value.str "b") := by
  have h := inner_joiner_column_policy "_1" "_2" ["k"]
    [("k", Value.int 1), ("v", Value.str "a"), ("x", Value.int 10)]
    [("k", Value.int 1), ("v", Value.str "b"), ("y", Value.int 20)]
    [("x", Value.int 10), ("y", Value.int 20), ("k", Value.int 1),
      ("v_1", Value.str "a"), ("v_2", Value.str "b")]
    (by decide) (by decide) (by decide) (by decide) (by decide) (by decide)
  refine ⟨by decide, h.1 "k" (by decide), ?_, ?_, ?_, ?_⟩
  · exact (h.2.1 "x" (by decide) (by decide)).trans (by decide)
  · exact (h.2.2.1 "y" (by decide) (by decide)).trans (by decide)
  · exact ((h.2.2.2 "v" (by decide)).1).trans (by decide)
  · exact ((h.2.2.2 "v" (by decide)).2).trans (by decide)

/-!  ## C5: the sort-merge join driver -/

/-- Whether Python can order two values: `pyLtV` does not raise. -/
def ltDefined (a b : Value) : Bool :=
  match pyLtV a b with
  | .ok _ => true
  | .error _ => false

/-- Componentwise comparability of two key lists. -/
def kCompat (ka kb : List Value) : Prop :=
  ka.length = kb.length ∧ ∀ p ∈ ka.zip kb, ltDefined p.1 p.2 = true

instance (ka kb : List Value) : Decidable (kCompat ka kb) := by
  rw [kCompat]
  infer_instance

theorem ltDefined_some {a b : Value} (h : ltDefined a b = true) :
    ∃ xa yb, cmpKey a = some xa ∧ cmpKey b = some yb ∧
      ((∃ p q, xa = .inl p ∧ yb = .inl q) ∨
       (∃ p q, xa = .inr p ∧ yb = .inr q)) := by
  rw [ltDefined, pyLtV] at h
  cases hca : cmpKey a with
  | none => rw [hca] at h; cases hcb : cmpKey b <;> simp at h
  | some xa =>
    cases hcb : cmpKey b with
    | none => rw [hca, hcb] at h; cases xa <;> simp at h
    | some yb =>
      rw [hca, hcb] at h
      cases xa with
      | inl p =>
        cases yb with
        | inl q => exact ⟨_, _, rfl, rfl, Or.inl ⟨p, q, rfl, rfl⟩⟩
        | inr q => simp at h
      | inr p =>
        cases yb with
        | inl q => simp at h
        | inr q => exact ⟨_, _, rfl, rfl, Or.inr ⟨p, q, rfl, rfl⟩⟩

theorem pyEqV_of_cmpKey {a b : Value} {xa yb : ℚ ⊕ String}
    (hca : cmpKey a = some xa) (hcb : cmpKey b = some yb) :
    pyEqV a b = decide (xa = yb) := by
  cases a <;> cases b <;> simp_all [cmpKey, pyEqV]

theorem pyEqV_some_none {a b : Value} {xa : ℚ ⊕ String}
    (hca : cmpKey a = some xa) (hcb : cmpKey b = none) :
    pyEqV a b = false := by
  cases a <;> cases b <;> simp_all [cmpKey, pyEqV]

theorem pyLtV_of_cmpKey {a a' b : Value}
    (h : cmpKey a = cmpKey a') : pyLtV a b = pyLtV a' b := by
  rw [pyLtV, pyLtV, h]

theorem pyLtV_trichotomy {a b : Value} (h : ltDefined a b = true) :
    pyLtV a b = .ok true ∨ pyEqV a b = true ∨ pyLtV b a = .ok true := by
  rcases ltDefined_some h with ⟨xa, yb, hca, hcb, hside⟩
  rcases hside with ⟨p, q, hxa, hyb⟩ | ⟨p, q, hxa, hyb⟩
  · subst hxa
    subst hyb
    rcases lt_trichotomy p q with hlt | heq | hgt
    · left
      rw [pyLtV, hca, hcb]
      simp [hlt]
    · right; left
      rw [pyEqV_of_cmpKey hca hcb]
      simp [heq]
    · right; right
      rw [pyLtV, hcb, hca]
      simp [hgt]
  · subst hxa
    subst hyb
    rcases lt_trichotomy p q with hlt | heq | hgt
    · left
      rw [pyLtV, hca, hcb]
      simp [hlt]
    · right; left
      rw [pyEqV_of_cmpKey hca hcb]
      simp [heq]
    · right; right
      rw [pyLtV, hcb, hca]
      simp [hgt]

theorem ltDefined_symm {a b : Value} (h : ltDefined a b = true) :
    ltDefined b a = true := by
  rcases ltDefined_some h with ⟨xa, yb, hca, hcb, hside⟩
  rcases hside with ⟨p, q, hxa, hyb⟩ | ⟨p, q, hxa, hyb⟩ <;>
    (subst hxa; subst hyb; rw [ltDefined, pyLtV, hcb, hca])

theorem ltDefined_iff {a b : Value} :
    ltDefined a b = true ↔ ∃ t, pyLtV a b = .ok t := by
  rw [ltDefined]
  cases pyLtV a b <;> simp

theorem kCompat_nil {kb : List Value} (h : kCompat [] kb) : kb = [] := by
  rcases h with ⟨hl, _⟩
  exact List.eq_nil_of_length_eq_zero hl.symm

theorem kCompat_cons {a b : Value} {as bs : List Value} :
    kCompat (a :: as) (b :: bs) ↔ ltDefined a b = true ∧ kCompat as bs := by
  rw [kCompat, kCompat, List.zip_cons_cons]
  simp only [List.length_cons, Nat.add_right_cancel_iff, List.mem_cons]
  constructor
  · rintro ⟨hl, hall⟩
    exact ⟨hall (a, b) (Or.inl rfl), hl, fun p hp => hall p (Or.inr hp)⟩
  · rintro ⟨hab, hl, hall⟩
    refine ⟨hl, ?_⟩
    rintro p (hp | hp)
    · rw [hp]; exact hab
    · exact hall p hp

theorem kCompat_cons_ex {a : Value} {as kb : List Value}
    (h : kCompat (a :: as) kb) :
    ∃ b bs, kb = b :: bs ∧ ltDefined a b = true ∧ kCompat as bs := by
  cases kb with
  | nil => rcases h with ⟨hl, _⟩; simp at hl
  | cons b bs => exact ⟨b, bs, rfl, kCompat_cons.mp h⟩

theorem pyLtK_ok_of_compat {ka kb : List Value} (h : kCompat ka kb) :
    ∃ t, pyLtK ka kb = .ok t := by
  induction ka generalizing kb with
  | nil =>
    rw [kCompat_nil h]
    exact ⟨false, rfl⟩
  | cons a as ih =>
    rcases kCompat_cons_ex h with ⟨b, bs, hkb, hab, htail⟩
    subst hkb
    by_cases he : pyEqV a b
    · rw [pyLtK, if_pos he]
      exact ih htail
    · rw [pyLtK, if_neg he]
      exact ltDefined_iff.mp hab

theorem kLtB_cons_of_eq {a b : Value} {as bs : List Value}
    (h : pyEqV a b = true) : kLtB (a :: as) (b :: bs) = kLtB as bs := by
  rw [kLtB, kLtB, pyLtK, if_pos h]

theorem kLtB_of_ok_true {ka kb : List Value} (h : pyLtK ka kb = .ok true) :
    kLtB ka kb = true := by
  rw [kLtB, h]

theorem pyLtK_trichotomy {ka kb : List Value} (h : kCompat ka kb) :
    kLtB ka kb = true ∨ pyEqK ka kb = true ∨ kLtB kb ka = true := by
  induction ka generalizing kb with
  | nil =>
    rw [kCompat_nil h]
    right; left; rfl
  | cons a as ih =>
    rcases kCompat_cons_ex h with ⟨b, bs, hkb, hab, htail⟩
    subst hkb
    by_cases he : pyEqV a b
    · rcases ih htail with h1 | h1 | h1
      · left
        rw [kLtB_cons_of_eq he]
        exact h1
      · right; left
        rw [pyEqK, he, h1]
        rfl
      · right; right
        rw [kLtB_cons_of_eq (pyEqV_symm a b ▸ he)]
        exact h1
    · rcases pyLtV_trichotomy hab with h1 | h1 | h1
      · left
        exact kLtB_of_ok_true (by rw [pyLtK, if_neg he]; exact h1)
      · exact absurd h1 he
      · right; right
        refine kLtB_of_ok_true ?_
        rw [pyLtK, if_neg (by rw [pyEqV_symm]; exact he)]
        exact h1

theorem pyLtK_congr_left {ka kb x : List Value} (he : pyEqK ka kb = true)
    (hc : kCompat ka x) : pyLtK ka x = pyLtK kb x := by
  induction ka generalizing kb x with
  | nil =>
    cases kb with
    | nil => rfl
    | cons b bs => simp [pyEqK] at he
  | cons a as ih =>
    cases kb with
    | nil => simp [pyEqK] at he
    | cons b bs =>
      rw [pyEqK, Bool.and_eq_true] at he
      cases x with
      | nil => rfl
      | cons x0 xs =>
        rcases kCompat_cons.mp hc with ⟨hax, htail⟩
        rcases ltDefined_some hax with ⟨xa, y, hca, hcx, _⟩
        have hcb : ∃ xb, cmpKey b = some xb := by
          cases hcb0 : cmpKey b with
          | none => rw [pyEqV_some_none hca hcb0] at he; exact absurd he.1 (by simp)
          | some xb => exact ⟨xb, rfl⟩
        rcases hcb with ⟨xb, hcb⟩
        have hxab : xa = xb := by
          have := pyEqV_of_cmpKey hca hcb
          rw [he.1] at this
          exact of_decide_eq_true this.symm
        have heq2 : pyEqV a x0 = pyEqV b x0 := by
          rw [pyEqV_of_cmpKey hca hcx, pyEqV_of_cmpKey hcb hcx, hxab]
        have hlt2 : pyLtV a x0 = pyLtV b x0 :=
          pyLtV_of_cmpKey (by rw [hca, hcb, hxab])
        rw [pyLtK, pyLtK, ← heq2, ← hlt2]
        by_cases hax0 : pyEqV a x0
        · rw [if_pos hax0, if_pos hax0]
          exact ih he.2 htail
        · rw [if_neg hax0, if_neg hax0]

theorem kLtB_congr_left {ka kb x : List Value} (he : pyEqK ka kb = true)
    (hc : kCompat ka x) : kLtB ka x = kLtB kb x := by
  rw [kLtB, kLtB, pyLtK_congr_left he hc]

theorem cogroupSpec_nil_left (gbs : List (List Value × List Row)) :
    cogroupSpec [] gbs = gbs.map (fun t => (t.1, [], t.2)) := by
  cases gbs <;> simp [cogroupSpec]

theorem cogroupSpec_nil_right (ka : List Value) (ga : List Row)
    (gas : List (List Value × List Row)) :
    cogroupSpec ((ka, ga) :: gas) [] =
      ((ka, ga) :: gas).map (fun t => (t.1, t.2, [])) := by
  simp [cogroupSpec]

theorem cogroupSpec_cons_cons (ka kb : List Value) (ga gb : List Row)
    (gas gbs : List (List Value × List Row)) :
    cogroupSpec ((ka, ga) :: gas) ((kb, gb) :: gbs) =
      if kLtB ka kb then (ka, ga, []) :: cogroupSpec gas ((kb, gb) :: gbs)
      else if pyEqK ka kb then (ka, ga, gb) :: cogroupSpec gas gbs
      else (kb, [], gb) :: cogroupSpec ((ka, ga) :: gas) gbs := by
  rw [cogroupSpec]

/-- The first cell of a co-grouping is headed by the first group of one of
the two sides. -/
theorem cogroupSpec_head (gas gbs : List (List Value × List Row))
    (t : List Value × List Row × List Row)
    (rest : List (List Value × List Row × List Row))
    (h : cogroupSpec gas gbs = t :: rest) :
    (∃ g gas', gas = (t.1, g) :: gas') ∨ (∃ g gbs', gbs = (t.1, g) :: gbs') := by
  cases gas with
  | nil =>
    rw [cogroupSpec_nil_left] at h
    cases gbs with
    | nil => simp at h
    | cons y gbs' =>
      right
      rw [List.map_cons] at h
      have := (List.cons.inj h).1
      exact ⟨y.2, gbs', by rw [← this]⟩
  | cons x gas' =>
    cases gbs with
    | nil =>
      left
      rw [show x = (x.1, x.2) from rfl, cogroupSpec_nil_right] at h
      rw [List.map_cons] at h
      have := (List.cons.inj h).1
      exact ⟨x.2, gas', by rw [← this]⟩
    | cons y gbs' =>
      rw [show x = (x.1, x.2) from rfl, show y = (y.1, y.2) from rfl,
        cogroupSpec_cons_cons] at h
      by_cases hlt : kLtB x.1 y.1
      · rw [if_pos hlt] at h
        have := (List.cons.inj h).1
        exact Or.inl ⟨x.2, gas', by rw [← this]⟩
      · rw [if_neg hlt] at h
        by_cases heq : pyEqK x.1 y.1
        · rw [if_pos heq] at h
          have := (List.cons.inj h).1
          exact Or.inl ⟨x.2, gas', by rw [← this]⟩
        · rw [if_neg heq] at h
          have := (List.cons.inj h).1
          exact Or.inr ⟨y.2, gbs', by rw [← this]⟩

/-- The co-grouping's cells are in strictly ascending key order. -/
theorem cogroupSpec_chain :
    ∀ (n : Nat) (gas gbs : List (List Value × List Row)),
      gas.length + gbs.length ≤ n →
      (∀ ka ∈ gas.map Prod.fst, ∀ kb ∈ gbs.map Prod.fst, kCompat ka kb) →
      List.Chain' (fun k1 k2 => kLtB k1 k2 = true) (gas.map Prod.fst) →
      List.Chain' (fun k1 k2 => kLtB k1 k2 = true) (gbs.map Prod.fst) →
      List.Chain' (fun k1 k2 => kLtB k1 k2 = true)
        ((cogroupSpec gas gbs).map (fun t => t.1)) := by
  intro n
  induction n with
  | zero =>
    intro gas gbs hlen _ _ _
    have hga : gas = [] := List.eq_nil_of_length_eq_zero (by omega)
    have hgb : gbs = [] := List.eq_nil_of_length_eq_zero (by omega)
    subst hga
    subst hgb
    simp [cogroupSpec_nil_left]
  | succ n ih =>
    intro gas gbs hlen hcomp hca hcb
    cases gas with
    | nil =>
      rw [cogroupSpec_nil_left, List.map_map]
      simpa using hcb
    | cons x gas' =>
      cases gbs with
      | nil =>
        rw [show x = (x.1, x.2) from rfl, cogroupSpec_nil_right, List.map_map]
        simpa using hca
      | cons y gbs' =>
        have hcomphead : kCompat x.1 y.1 :=
          hcomp x.1 (by simp) y.1 (by simp)
        have hcatail : List.Chain' (fun k1 k2 => kLtB k1 k2 = true)
            (gas'.map Prod.fst) := (List.chain'_cons'.mp (by simpa using hca)).2
        have hcbtail : List.Chain' (fun k1 k2 => kLtB k1 k2 = true)
            (gbs'.map Prod.fst) := (List.chain'_cons'.mp (by simpa using hcb)).2
        have hcahead : ∀ h2 ∈ (gas'.map Prod.fst).head?, kLtB x.1 h2 = true :=
          (List.chain'_cons'.mp (by simpa using hca)).1
        have hcbhead : ∀ h2 ∈ (gbs'.map Prod.fst).head?, kLtB y.1 h2 = true :=
          (List.chain'_cons'.mp (by simpa using hcb)).1
        rw [show x = (x.1, x.2) from rfl, show y = (y.1, y.2) from rfl,
          cogroupSpec_cons_cons]
        by_cases hlt : kLtB x.1 y.1
        · rw [if_pos hlt, List.map_cons]
          refine List.chain'_cons'.mpr ⟨?_, ?_⟩
          · intro h2 hh
            cases hS : cogroupSpec gas' ((y.1, y.2) :: gbs') with
            | nil => rw [hS] at hh; simp at hh
            | cons t rest =>
              rw [hS] at hh
              simp only [List.map_cons, List.head?_cons, Option.mem_def,
                Option.some.injEq] at hh
              subst hh
              rcases cogroupSpec_head _ _ _ _ hS with ⟨g, gas'', hg⟩ | ⟨g, gbs'', hg⟩
              · refine hcahead t.1 ?_
                rw [hg]
                simp
              · have ht1 : t.1 = y.1 := by
                  have h3 := (List.cons.inj hg).1
                  exact (congrArg Prod.fst h3).symm
                rw [ht1]
                exact hlt
          · exact ih gas' ((y.1, y.2) :: gbs')
              (by simp only [List.length_cons] at hlen ⊢; omega)
              (fun ka hka kb hkb => hcomp ka (by simp [hka]) kb hkb)
              hcatail (by simpa using hcb)
        · rw [if_neg hlt]
          by_cases heq : pyEqK x.1 y.1
          · rw [if_pos heq, List.map_cons]
            refine List.chain'_cons'.mpr ⟨?_, ?_⟩
            · intro h2 hh
              cases hS : cogroupSpec gas' gbs' with
              | nil => rw [hS] at hh; simp at hh
              | cons t rest =>
                rw [hS] at hh
                simp only [List.map_cons, List.head?_cons, Option.mem_def,
                  Option.some.injEq] at hh
                subst hh
                rcases cogroupSpec_head _ _ _ _ hS with ⟨g, gas'', hg⟩ | ⟨g, gbs'', hg⟩
                · refine hcahead t.1 ?_
                  rw [hg]
                  simp
                · have hyb : kLtB y.1 t.1 = true := by
                    refine hcbhead t.1 ?_
                    rw [hg]
                    simp
                  have hcompx : kCompat x.1 t.1 := by
                    refine hcomp x.1 (by simp) t.1 ?_
                    rw [hg]
                    simp
                  rw [kLtB_congr_left heq hcompx]
                  exact hyb
            · exact ih gas' gbs'
                (by simp only [List.length_cons] at hlen ⊢; omega)
                (fun ka hka kb hkb => hcomp ka (by simp [hka]) kb (by simp [hkb]))
                hcatail hcbtail
          · have hgt : kLtB y.1 x.1 = true := by
              rcases pyLtK_trichotomy hcomphead with h1 | h1 | h1
              · exact absurd h1 hlt
              · exact absurd h1 heq
              · exact h1
            rw [if_neg heq, List.map_cons]
            refine List.chain'_cons'.mpr ⟨?_, ?_⟩
            · intro h2 hh
              cases hS : cogroupSpec ((x.1, x.2) :: gas') gbs' with
              | nil => rw [hS] at hh; simp at hh
              | cons t rest =>
                rw [hS] at hh
                simp only [List.map_cons, List.head?_cons, Option.mem_def,
                  Option.some.injEq] at hh
                subst hh
                rcases cogroupSpec_head _ _ _ _ hS with ⟨g, gas'', hg⟩ | ⟨g, gbs'', hg⟩
                · have ht1 : t.1 = x.1 := by
                    have h3 := (List.cons.inj hg).1
                    exact (congrArg Prod.fst h3).symm
                  rw [ht1]
                  exact hgt
                · refine hcbhead t.1 ?_
                  rw [hg]
                  simp
            · exact ih ((x.1, x.2) :: gas') gbs'
                (by simp only [List.length_cons] at hlen ⊢; omega)
                (fun ka hka kb hkb => hcomp ka hka kb (by simp [hkb]))
                (by simpa using hca) hcbtail

theorem filterMap_some_id {l : List α} {f : α → Option α}
    (h : ∀ p ∈ l, f p = some p) : l.filterMap f = l := by
  induction l with
  | nil => rfl
  | cons a as ih =>
    rw [List.filterMap_cons, h a (by simp),
      ih (fun p hp => h p (by simp [hp]))]

/-- Every left group passes through the co-grouping exactly once, with its
key, in order. -/
theorem cogroupSpec_left :
    ∀ (n : Nat) (gas gbs : List (List Value × List Row)),
      gas.length + gbs.length ≤ n → (∀ p ∈ gas, p.2 ≠ []) →
      (cogroupSpec gas gbs).filterMap
        (fun t => if t.2.1.isEmpty then none else some (t.1, t.2.1)) = gas := by
  intro n
  induction n with
  | zero =>
    intro gas gbs hlen _
    have hga : gas = [] := List.eq_nil_of_length_eq_zero (by omega)
    have hgb : gbs = [] := List.eq_nil_of_length_eq_zero (by omega)
    subst hga
    subst hgb
    rw [cogroupSpec_nil_left]
    rfl
  | succ n ih =>
    intro gas gbs hlen hne
    cases gas with
    | nil =>
      rw [cogroupSpec_nil_left, List.filterMap_map]
      have : ∀ p ∈ gbs, ((fun t => if t.2.1.isEmpty then none
          else some (t.1, t.2.1)) ∘ (fun t => (t.1, ([] : List Row), t.2))) p =
          none := by
        intro p _
        rfl
      rw [List.filterMap_congr this]
      simp
    | cons x gas' =>
      cases gbs with
      | nil =>
        rw [show x = (x.1, x.2) from rfl, cogroupSpec_nil_right,
          List.filterMap_map]
        refine filterMap_some_id ?_
        intro p hp
        have hp2 : p.2 ≠ [] := hne p (by simpa using hp)
        have : p.2.isEmpty = false := by
          cases h2 : p.2 with
          | nil => exact absurd h2 hp2
          | cons c cs => rfl
        simp [Function.comp, this]
      | cons y gbs' =>
        rw [show x = (x.1, x.2) from rfl, show y = (y.1, y.2) from rfl,
          cogroupSpec_cons_cons]
        have hxne : x.2.isEmpty = false := by
          cases h2 : x.2 with
          | nil => exact absurd h2 (hne x (by simp))
          | cons c cs => rfl
        by_cases hlt : kLtB x.1 y.1
        · rw [if_pos hlt, List.filterMap_cons]
          simp only [hxne, Bool.false_eq_true, if_false]
          rw [ih gas' ((y.1, y.2) :: gbs')
            (by simp only [List.length_cons] at hlen ⊢; omega)
            (fun p hp => hne p (by simp [hp]))]
        · rw [if_neg hlt]
          by_cases heq : pyEqK x.1 y.1
          · rw [if_pos heq, List.filterMap_cons]
            simp only [hxne, Bool.false_eq_true, if_false]
            rw [ih gas' gbs'
              (by simp only [List.length_cons] at hlen ⊢; omega)
              (fun p hp => hne p (by simp [hp]))]
          · rw [if_neg heq, List.filterMap_cons]
            simp only [List.isEmpty_nil, if_true]
            rw [ih ((x.1, x.2) :: gas') gbs'
              (by simp only [List.length_cons] at hlen ⊢; omega)
              (fun p hp => hne p (by simpa using hp))]

/-- Every right group passes through the co-grouping exactly once, in
order. -/
theorem cogroupSpec_right :
    ∀ (n : Nat) (gas gbs : List (List Value × List Row)),
      gas.length + gbs.length ≤ n → (∀ p ∈ gbs, p.2 ≠ []) →
      (cogroupSpec gas gbs).filterMap
        (fun t => if t.2.2.isEmpty then none else some t.2.2) =
        gbs.map Prod.snd := by
  intro n
  induction n with
  | zero =>
    intro gas gbs hlen _
    have hga : gas = [] := List.eq_nil_of_length_eq_zero (by omega)
    have hgb : gbs = [] := List.eq_nil_of_length_eq_zero (by omega)
    subst hga
    subst hgb
    rw [cogroupSpec_nil_left]
    rfl
  | succ n ih =>
    intro gas gbs hlen hne
    cases gas with
    | nil =>
      rw [cogroupSpec_nil_left, List.filterMap_map]
      clear hlen ih
      revert hne
      induction gbs with
      | nil =>
        intro _
        rfl
      | cons y gbs' ihy =>
        intro hne
        rw [List.filterMap_cons]
        have hyne : y.2.isEmpty = false := by
          cases h2 : y.2 with
          | nil => exact absurd h2 (hne y (by simp))
          | cons c cs => rfl
        simp only [Function.comp, hyne]
        rw [ihy (fun p hp => hne p (by simp [hp]))]
        rfl
    | cons x gas' =>
      cases gbs with
      | nil =>
        rw [show x = (x.1, x.2) from rfl, cogroupSpec_nil_right,
          List.filterMap_map]
        have : ∀ p ∈ (x.1, x.2) :: gas',
            ((fun t => if t.2.2.isEmpty then none else some t.2.2) ∘
              (fun t => (t.1, t.2, ([] : List Row)))) p = none := by
          intro p _
          rfl
        rw [List.filterMap_congr this]
        simp
      | cons y gbs' =>
        rw [show x = (x.1, x.2) from rfl, show y = (y.1, y.2) from rfl,
          cogroupSpec_cons_cons]
        have hyne : y.2.isEmpty = false := by
          cases h2 : y.2 with
          | nil => exact absurd h2 (hne y (by simp))
          | cons c cs => rfl
        by_cases hlt : kLtB x.1 y.1
        · rw [if_pos hlt, List.filterMap_cons]
          simp only [List.isEmpty_nil, if_true]
          rw [ih gas' ((y.1, y.2) :: gbs')
            (by simp only [List.length_cons] at hlen ⊢; omega)
            (fun p hp => hne p (by simpa using hp))]
        · rw [if_neg hlt]
          by_cases heq : pyEqK x.1 y.1
          · rw [if_pos heq, List.filterMap_cons]
            simp only [hyne, Bool.false_eq_true, if_false]
            rw [ih gas' gbs'
              (by simp only [List.length_cons] at hlen ⊢; omega)
              (fun p hp => hne p (by simp [hp]))]
            rfl
          · rw [if_neg heq, List.filterMap_cons]
            simp only [hyne, Bool.false_eq_true, if_false]
            rw [ih ((x.1, x.2) :: gas') gbs'
              (by simp only [List.length_cons] at hlen ⊢; omega)
              (fun p hp => hne p (by simp [hp]))]
            rfl

theorem chunkRuns_cons (k : List Value) (r : Row)
    (rest : List (List Value × Row)) :
    chunkRuns ((k, r) :: rest) =
      match chunkRuns rest with
      | [] => [(k, [r])]
      | (k2, g) :: gs =>
        if pyEqK k k2 then (k, r :: g) :: gs
        else (k, [r]) :: (k2, g) :: gs := rfl

/-- `itertools.groupby` never produces an empty group. -/
theorem chunkRuns_ne :
    ∀ (l : List (List Value × Row)), ∀ p ∈ chunkRuns l, p.2 ≠ [] := by
  intro l
  induction l with
  | nil =>
    intro p hp
    simp [chunkRuns] at hp
  | cons x rest ih =>
    intro p hp
    rw [show x = (x.1, x.2) from rfl, chunkRuns_cons] at hp
    cases hc : chunkRuns rest with
    | nil =>
      rw [hc] at hp
      simp only [List.mem_singleton] at hp
      rw [hp]
      simp
    | cons q gs =>
      obtain ⟨k2, g⟩ := q
      rw [hc] at hp
      by_cases he : pyEqK x.1 k2
      · simp only [if_pos he] at hp
        rcases List.mem_cons.mp hp with h1 | h1
        · rw [h1]
          simp
        · exact ih p (by rw [hc]; exact List.mem_cons_of_mem _ h1)
      · simp only [if_neg he] at hp
        rcases List.mem_cons.mp hp with h1 | h1
        · rw [h1]
          simp
        · exact ih p (by rw [hc]; exact h1)

theorem joinMergeLoop_nil_left (keys : List String) (J : JoinFn)
    (gbs : List (List Value × List Row)) :
    joinMergeLoop keys J [] gbs =
      .ok (gbs.flatMap (fun t => J keys [] t.2)) := by
  cases gbs <;> rw [joinMergeLoop]

theorem joinMergeLoop_nil_right (keys : List String) (J : JoinFn)
    (ka : List Value) (ga : List Row) (gas : List (List Value × List Row)) :
    joinMergeLoop keys J ((ka, ga) :: gas) [] =
      .ok (((ka, ga) :: gas).flatMap (fun t => J keys t.2 [])) := by
  rw [joinMergeLoop]

theorem joinMergeLoop_cons_cons (keys : List String) (J : JoinFn)
    (ka kb : List Value) (ga gb : List Row)
    (gas gbs : List (List Value × List Row)) :
    joinMergeLoop keys J ((ka, ga) :: gas) ((kb, gb) :: gbs) =
      (pyLtK ka kb) >>= (fun lt =>
        if lt then
          (joinMergeLoop keys J gas ((kb, gb) :: gbs)) >>= (fun rest =>
            .ok (J keys ga [] ++ rest))
        else if pyEqK ka kb then
          (joinMergeLoop keys J gas gbs) >>= (fun rest =>
            .ok (J keys ga gb ++ rest))
        else
          (joinMergeLoop keys J ((ka, ga) :: gas) gbs) >>= (fun rest =>
            .ok (J keys [] gb ++ rest))) := by
  rw [joinMergeLoop]

/-- On componentwise-comparable grouped inputs the merge loop of
`Join.__call__` succeeds and computes exactly the co-grouping protocol,
one joiner invocation per cell. -/
theorem joinMergeLoop_cogroup :
    ∀ (n : Nat) (keys : List String) (J : JoinFn)
      (gas gbs : List (List Value × List Row)),
      gas.length + gbs.length ≤ n →
      (∀ ka ∈ gas.map Prod.fst, ∀ kb ∈ gbs.map Prod.fst, kCompat ka kb) →
      joinMergeLoop keys J gas gbs =
        .ok ((cogroupSpec gas gbs).flatMap (fun t => J keys t.2.1 t.2.2)) := by
  intro n
  induction n with
  | zero =>
    intro keys J gas gbs hlen _
    have hga : gas = [] := List.eq_nil_of_length_eq_zero (by omega)
    have hgb : gbs = [] := List.eq_nil_of_length_eq_zero (by omega)
    subst hga
    subst hgb
    rw [joinMergeLoop_nil_left, cogroupSpec_nil_left]
    rfl
  | succ n ih =>
    intro keys J gas gbs hlen hcomp
    cases gas with
    | nil =>
      rw [joinMergeLoop_nil_left, cogroupSpec_nil_left, List.flatMap_map]
    | cons x gas' =>
      cases gbs with
      | nil =>
        rw [show x = (x.1, x.2) from rfl, joinMergeLoop_nil_right,
          cogroupSpec_nil_right, List.flatMap_map]
      | cons y gbs' =>
        have hcomphead : kCompat x.1 y.1 :=
          hcomp x.1 (by simp) y.1 (by simp)
        rcases pyLtK_ok_of_compat hcomphead with ⟨t, hltk⟩
        have hkb : kLtB x.1 y.1 = t := by rw [kLtB, hltk]
        rw [show x = (x.1, x.2) from rfl, show y = (y.1, y.2) from rfl,
          joinMergeLoop_cons_cons, hltk, cogroupSpec_cons_cons, hkb]
        cases t with
        | true =>
          conv_rhs => rw [if_pos rfl, List.flatMap_cons]
          rw [ih keys J gas' ((y.1, y.2) :: gbs')
            (by simp only [List.length_cons] at hlen ⊢; omega)
            (fun ka hka kb hkb2 => hcomp ka (by simp [hka]) kb hkb2)]
          rfl
        | false =>
          cases he : pyEqK x.1 y.1 with
          | true =>
            conv_rhs => rw [if_neg (by simp), if_pos rfl, List.flatMap_cons]
            rw [ih keys J gas' gbs'
              (by simp only [List.length_cons] at hlen ⊢; omega)
              (fun ka hka kb hkb2 =>
                hcomp ka (by simp [hka]) kb (by simp [hkb2]))]
            rfl
          | false =>
            conv_rhs => rw [if_neg (by simp), if_neg (by simp), List.flatMap_cons]
            rw [ih keys J ((x.1, x.2) :: gas') gbs'
              (by simp only [List.length_cons] at hlen ⊢; omega)
              (fun ka hka kb hkb2 =>
                hcomp ka (by simpa using hka) kb (by simp [hkb2]))]
            rfl

/-- Left input of the join-driver example: two rows with distinct keys. -/
def rowsA5 : List Row :=
  [[("k", Value.int 1), ("a", Value.int 1)],
   [("k", Value.int 2), ("a", Value.int 2)]]

/-- Right input of the join-driver example. -/
def rowsB5 : List Row :=
  [[("k", Value.int 2), ("b", Value.int 1)],
   [("k", Value.int 3), ("b", Value.int 2)]]

/-- The grouping of `rowsA5` by the key column. -/
def gas5 : List (List Value × List Row) :=
  [([Value.int 1], [[("k", Value.int 1), ("a", Value.int 1)]]),
   ([Value.int 2], [[("k", Value.int 2), ("a", Value.int 2)]])]

/-- The grouping of `rowsB5` by the key column. -/
def gbs5 : List (List Value × List Row) :=
  [([Value.int 2], [[("k", Value.int 2), ("b", Value.int 1)]]),
   ([Value.int 3], [[("k", Value.int 3), ("b", Value.int 2)]])]

/-- A joiner that concatenates the two groups of a cell. -/
def joiner5 : JoinFn := fun _ ga gb => ga ++ gb

/-- C5: on two inputs pre-sorted ascending by the key columns, the join
driver succeeds and emits one joiner invocation per distinct key value, in
ascending key order: equal group keys are passed together and both sides
advance, a smaller group key is passed with an empty other side and only
that side advances, and an exhausted side leaves the rest of the other
stream drained group by group against an empty group — stated as a
refinement of `joinCall` into the co-grouping protocol `cogroupSpec`,
whose cell keys are strictly ascending and whose nonempty left
(respectively right) slots enumerate exactly the left (right) groups in
their input order. -/
theorem join_driver_cogroups (keys : List String) (J : JoinFn)
    (a b : List Row) (gas gbs : List (List Value × List Row))
    (hA : runsByKey keys a = .ok gas) (hB : runsByKey keys b = .ok gbs)
    (hcomp : ∀ ka ∈ gas.map Prod.fst, ∀ kb ∈ gbs.map Prod.fst, kCompat ka kb)
    (hsA : List.Chain' (fun k1 k2 => kLtB k1 k2 = true) (gas.map Prod.fst))
    (hsB : List.Chain' (fun k1 k2 => kLtB k1 k2 = true) (gbs.map Prod.fst)) :
    joinCall keys J a b =
      .ok ((cogroupSpec gas gbs).flatMap (fun t => J keys t.2.1 t.2.2)) ∧
    List.Chain' (fun k1 k2 => kLtB k1 k2 = true)
      ((cogroupSpec gas gbs).map (fun t => t.1)) ∧
    (cogroupSpec gas gbs).filterMap
      (fun t => if t.2.1.isEmpty then none else some (t.1, t.2.1)) = gas ∧
    (cogroupSpec gas gbs).filterMap
      (fun t => if t.2.2.isEmpty then none else some t.2.2) =
      gbs.map Prod.snd := by
  have hnea : ∀ p ∈ gas, p.2 ≠ [] := by
    have hA2 := hA
    rw [runsByKey] at hA2
    rcases ebind_ok_iff.mp hA2 with ⟨kr, _, hok⟩
    have hchunk : chunkRuns kr = gas := Except.ok.inj hok
    intro p hp
    refine chunkRuns_ne kr p ?_
    rw [hchunk]
    exact hp
  have hneb : ∀ p ∈ gbs, p.2 ≠ [] := by
    have hB2 := hB
    rw [runsByKey] at hB2
    rcases ebind_ok_iff.mp hB2 with ⟨kr, _, hok⟩
    have hchunk : chunkRuns kr = gbs := Except.ok.inj hok
    intro p hp
    refine chunkRuns_ne kr p ?_
    rw [hchunk]
    exact hp
  refine ⟨?_,
    cogroupSpec_chain (gas.length + gbs.length) gas gbs le_rfl hcomp hsA hsB,
    cogroupSpec_left (gas.length + gbs.length) gas gbs le_rfl hnea,
    cogroupSpec_right (gas.length + gbs.length) gas gbs le_rfl hneb⟩
  have hcall : joinCall keys J a b = joinMergeLoop keys J gas gbs := by
    rw [joinCall, hA, ebind_ok, hB, ebind_ok]
  rw [hcall]
  exact joinMergeLoop_cogroup (gas.length + gbs.length) keys J gas gbs
    le_rfl hcomp

theorem join_driver_cogroups_witness :
    runsByKey ["k"] rowsA5 = .ok gas5 ∧
    runsByKey ["k"] rowsB5 = .ok gbs5 ∧
    (joinCall ["k"] joiner5 rowsA5 rowsB5 =
        .ok ((cogroupSpec gas5 gbs5).flatMap
          (fun t => joiner5 ["k"] t.2.1 t.2.2)) ∧
      List.Chain' (fun k1 k2 => kLtB k1 k2 = true)
        ((cogroupSpec gas5 gbs5).map (fun t => t.1)) ∧
      (cogroupSpec gas5 gbs5).filterMap
        (fun t => if t.2.1.isEmpty then none else some (t.1, t.2.1)) = gas5 ∧
      (cogroupSpec gas5 gbs5).filterMap
        (fun t => if t.2.2.isEmpty then none else some t.2.2) =
        gbs5.map Prod.snd) :=
  ⟨by decide, by decide,
    join_driver_cogroups ["k"] joiner5 rowsA5 rowsB5 gas5 gbs5
      (by decide) (by decide) (by decide)
      (by refine List.chain'_pair.mpr ?_; decide)
      (by refine List.chain'_pair.mpr ?_; decide)⟩

end CompGraph
